import Mathlib

/-!
# powerline-go: the working-directory segment (`segment-cwd.go`)

A shallow embedding of `segment-cwd.go` and the properties of its
path-segmentation and truncation engine.

Modelling conventions.

* A Go `string` is a sequence of bytes: `GoString := List UInt8`.  Literals are
  written `str "..."`, the UTF-8 bytes of the text.
* The process environment is a lookup table `Env`; the file system is the
  predicate `FS` telling for which path names `os.Stat` succeeds.
* The loop of `searchGitRoot` is not structurally bounded, so it takes a fuel
  argument counting the ascents (`filepath.Dir` applications) it may perform;
  `Fault.outOfFuel` is the result of a run that needs more.  Run-time panics of
  Go (slice bounds out of range) are `Fault.panic`.
* `strings.*`, `path/filepath.*` and `os.*` are Go's standard library; the
  functions used by the file are modelled here from their documented behaviour
  on a Unix system (separator `/`, no volume names).
-/

namespace PowerlineCwd

/-! ## Go strings -/

/-- A Go string: an immutable sequence of bytes. -/
abbrev GoString := List UInt8

/-- The bytes (UTF-8) of a string literal of the source. -/
def str (s : String) : GoString := s.toUTF8.data.toList

/-- The byte `'/'`, the path separator. -/
def slash : UInt8 := 47

/-- The byte `'.'`. -/
def dot : UInt8 := 46

/-- Abnormal outcomes of a run. -/
inductive Fault where
  /-- The run needs more loop iterations than the fuel it was given. -/
  | outOfFuel
  /-- A Go run-time panic (slice bounds out of range). -/
  | panic
  deriving DecidableEq, Repr

/-- Go `s[n:]` on a string or slice: panics unless `0 ≤ n ≤ len(s)`. -/
def sliceFrom {α : Type} (s : List α) (n : Int) : Except Fault (List α) :=
  if 0 ≤ n ∧ n ≤ (s.length : Int) then .ok (s.drop n.toNat) else .error .panic

/-- Go `s[:n]`: panics unless `0 ≤ n ≤ len(s)` (for a slice Go allows `n` up to the
capacity; the model is the stricter one). -/
def sliceTo {α : Type} (s : List α) (n : Int) : Except Fault (List α) :=
  if 0 ≤ n ∧ n ≤ (s.length : Int) then .ok (s.take n.toNat) else .error .panic

/-- Go `s[a:b]`: panics unless `0 ≤ a ≤ b ≤ len(s)`. -/
def sliceFromTo {α : Type} (s : List α) (a b : Int) : Except Fault (List α) :=
  if 0 ≤ a ∧ a ≤ b ∧ b ≤ (s.length : Int) then .ok ((s.take b.toNat).drop a.toNat)
  else .error .panic

/-! ## `strings` -/

/-- Go `strings.HasPrefix(s, prefix)`. -/
def HasPrefix (s pre : GoString) : Bool := pre.isPrefixOf s

/-- Go `strings.Trim(s, cutset)` for a cutset of one ASCII byte: all leading and
trailing occurrences of the byte are removed. -/
def Trim (s : GoString) (c : UInt8) : GoString :=
  (s.dropWhile (fun b => b == c)).rdropWhile (fun b => b == c)

/-- Go `strings.Split(s, sep)` for a separator of one byte: the pieces of `s`
between the separators; `Split("", sep)` is `[""]`. -/
def Split (c : UInt8) : GoString → List GoString
  | [] => [[]]
  | b :: bs =>
    if b = c then [] :: Split c bs
    else
      match Split c bs with
      | [] => [[b]]
      | w :: ws => (b :: w) :: ws

/-- Go `strings.Join(elems, sep)`: the elements, with `sep` between consecutive ones. -/
def Join : List GoString → GoString → GoString
  | [], _ => []
  | [a], _ => a
  | a :: b :: rest, sepStr => a ++ sepStr ++ Join (b :: rest) sepStr

/-! ## `path/filepath` -/

/-- One path element processed by `filepath.Clean`; `stack` holds the elements
written so far, last one first. Empty and `.` elements are dropped; `..` removes
the last real element, is dropped at the root, and is kept in front of a
relative path. -/
def cleanStep (rooted : Bool) (stack : List GoString) (e : GoString) : List GoString :=
  if e = [] ∨ e = [dot] then stack
  else if e = [dot, dot] then
    match stack with
    | top :: rest =>
      if top = [dot, dot] then (if rooted then stack else e :: stack) else rest
    | [] => if rooted then stack else e :: stack
  else e :: stack

/-- Go `filepath.Clean(path)`: the shortest path name equivalent to `path` by
purely lexical processing. -/
def Clean (path : GoString) : GoString :=
  let rooted : Bool := path.head? = some slash
  let stack := (Split slash path).foldl (cleanStep rooted) []
  let body := Join stack.reverse [slash]
  if rooted then slash :: body
  else if body = [] then [dot]
  else body

/-- Go `filepath.Dir(path)`: all but the last element of `path`, cleaned. -/
def Dir (path : GoString) : GoString :=
  Clean (path.rdropWhile (fun b => b != slash))

/-- Go `filepath.Join(elem...)`: leading empty elements are ignored, the rest is
joined with the separator and cleaned; the empty string when all are empty. -/
def filepathJoin (elem : List GoString) : GoString :=
  match elem.dropWhile (fun e => e == []) with
  | [] => []
  | rest => Clean (Join rest [slash])

/-! ## Environment and file system -/

/-- The process environment: variable name to value, when set. -/
abbrev Env := GoString → Option GoString

/-- Go `os.LookupEnv(key)`: the value and whether the variable is set. -/
def LookupEnv (env : Env) (key : GoString) : GoString × Bool :=
  match env key with
  | some v => (v, true)
  | none => ([], false)

/-- The file system: the path names on which `os.Stat` returns no error. -/
abbrev FS := GoString → Bool

/-! ## `segment-cwd.go` -/

/-- The constant `ellipsis`, U+2026. -/
def ellipsis : GoString := str "…"

/-- The struct `pathSegment`. -/
structure pathSegment where
  path : GoString
  home : Bool := false
  root : Bool := false
  ellipsis : Bool := false
  deriving DecidableEq, Repr

/-- The function `exists`: `os.Stat(filepath.Join(elem...))` gives no error. -/
def «exists» (fs : FS) (elem : List GoString) : Bool :=
  fs (filepathJoin elem)

/-- The function `searchGitRoot`. The loop guard and the marker probe run on the
current candidate; each further iteration (one `filepath.Dir`) costs one unit of
fuel. -/
def searchGitRoot (fs : FS) : Nat → GoString → Except Fault (GoString × Bool)
  | fuel, cwd =>
    if cwd = str "/" ∨ cwd = str "" then .ok (str "", false)
    else if «exists» fs [cwd, str ".git"] then .ok (cwd, true)
    else
      match fuel with
      | 0 => .error .outOfFuel
      | fuel + 1 => searchGitRoot fs fuel (Dir cwd)

/-- The label of a version-control root (lines 50-61 of `cwdToPathSegments`): the
first marker present, in the order of the `if` chain. -/
def icon (fs : FS) (gitRoot : GoString) : GoString :=
  if «exists» fs [gitRoot, str "package.json"] then str "JS"
  else if «exists» fs [gitRoot, str "composer.json"] then str "🐘"
  else if «exists» fs [gitRoot, str "Gemfile"] then str "💎"
  else if «exists» fs [gitRoot, str "cpanfile"] then str "🐪"
  else if «exists» fs [gitRoot, str "__pycache__"] then str "Py"
  else str "Git"

/-- The local variables of `cwdToPathSegments` after its `if` chain (line 79). -/
structure Locals where
  pathSegments : List pathSegment
  cwd : GoString
  skip : Int
  joined : Bool
  deriving DecidableEq, Repr

/-- Lines 37-79 of `cwdToPathSegments`: the workspace, version-control, home and
root branches, given the result `gitRoot` of `searchGitRoot`. -/
def cwdToPathSegments_branch (env : Env) (fs : FS) (gitRoot cwd : GoString) :
    Except Fault Locals :=
  let gopath := (LookupEnv env (str "GOPATH")).1
  let home := (LookupEnv env (str "HOME")).1
  if gopath ≠ str "" ∧ HasPrefix cwd (gopath ++ str "/src") = true then do
    let rest ← sliceFrom cwd ((gopath ++ str "/src").length : Int)
    pure { pathSegments := [{ path := str "🐭", home := true }],
           cwd := rest, skip := 2, joined := true }
  else if gitRoot ≠ str "" then do
    let rest ← sliceFrom cwd ((Dir gitRoot).length : Int)
    pure { pathSegments := [{ path := icon fs gitRoot, home := true }],
           cwd := rest, skip := 0, joined := true }
  else if HasPrefix cwd home = true then do
    let rest ← sliceFrom cwd (home.length : Int)
    pure { pathSegments := [{ path := str "~", home := true }],
           cwd := rest, skip := 0, joined := false }
  else if cwd = str "/" then
    pure { pathSegments := [{ path := str "/", root := true }],
           cwd := cwd, skip := 0, joined := false }
  else
    pure { pathSegments := [], cwd := cwd, skip := 0, joined := false }

/-- Lines 81-85 of `cwdToPathSegments`: trim the separators, split, and drop a
leading empty name. -/
def cwdToPathSegments_split (cwd : GoString) : Except Fault (List GoString) :=
  let names := Split slash (Trim cwd slash)
  match names with
  | [] => .error .panic
  | n0 :: _ => if n0 = str "" then sliceFrom names 1 else pure names

/-- Lines 87-92 of `cwdToPathSegments`: the skip step. -/
def cwdToPathSegments_skip (names : List GoString) (skip : Int) :
    Except Fault (List GoString) :=
  let l : Int := names.length
  if skip < l then sliceFrom names skip
  else if 2 ≤ l then sliceFromTo names (l - 1) l
  else pure names

/-- Lines 94-106 of `cwdToPathSegments`: one joined segment, or one per name. -/
def cwdToPathSegments_emit (pathSegments : List pathSegment) (names : List GoString)
    (joined : Bool) : List pathSegment :=
  if 0 < names.length then
    if joined then pathSegments ++ [{ path := Join names (str "/") }]
    else pathSegments ++ names.map (fun name => { path := name })
  else pathSegments

/-- The function `cwdToPathSegments`; `fuel` bounds the ascents of `searchGitRoot`. -/
def cwdToPathSegments (env : Env) (fs : FS) (fuel : Nat) (cwd : GoString) :
    Except Fault (List pathSegment) := do
  let (gitRoot, _) ← searchGitRoot fs fuel cwd
  let st ← cwdToPathSegments_branch env fs gitRoot cwd
  let names ← cwdToPathSegments_split st.cwd
  let names ← cwdToPathSegments_skip names st.skip
  pure (cwdToPathSegments_emit st.pathSegments names st.joined)

/-! ### The prompt state -/

/-- Modelled from the spec: the command-line configuration `p.args` (declared
outside `segment-cwd.go`), `CwdMode`, `CwdMaxDepth`, `CwdMaxDirSize`. -/
structure args where
  CwdMode : GoString
  CwdMaxDepth : Int
  CwdMaxDirSize : Int
  deriving DecidableEq, Repr

/-- Modelled from the spec: the colour theme `p.theme` (declared outside
`segment-cwd.go`), the fields read by the file. -/
structure Theme where
  HomeSpecialDisplay : Bool
  HomeFg : UInt8
  HomeBg : UInt8
  CwdFg : UInt8
  PathFg : UInt8
  PathBg : UInt8
  SeparatorFg : UInt8
  deriving DecidableEq, Repr

/-- Modelled from the spec: the shell-specific escape sequences `p.shellInfo`
(declared outside `segment-cwd.go`). -/
structure ShellInfo where
  escapedBackslash : GoString
  escapedBacktick : GoString
  escapedDollar : GoString
  deriving DecidableEq, Repr

/-- Modelled from the spec: the rendered unit `segment` (declared outside
`segment-cwd.go`), the fields written by the file; unset fields are Go zero
values. -/
structure segment where
  content : GoString
  foreground : UInt8
  background : UInt8
  separator : GoString := []
  separatorForeground : UInt8 := 0
  deriving DecidableEq, Repr

/-- Modelled from the spec: the prompt builder `powerline` (declared outside
`segment-cwd.go`): the fields read by the file, the rendering sink `Segments`
(origin tag and segment of every `appendSegment` call, in order) and the
advisories signalled through `warn`. -/
structure powerline where
  cwd : GoString
  args : args
  theme : Theme
  shellInfo : ShellInfo
  SeparatorThin : GoString
  Segments : List (GoString × segment) := []
  warnings : List GoString := []
  deriving DecidableEq, Repr

/-- Modelled from the spec: the rendering sink `p.appendSegment(origin, segment)`
(declared outside `segment-cwd.go`) accepts one segment with its origin tag. -/
def appendSegment (p : powerline) (origin : GoString) (s : segment) : powerline :=
  { p with Segments := p.Segments ++ [(origin, s)] }

/-- Modelled from the spec: `warn(msg)` (declared outside `segment-cwd.go`)
signals a non-fatal advisory to the caller. -/
def warn (p : powerline) (msg : GoString) : powerline :=
  { p with warnings := p.warnings ++ [msg] }

/-- The function `maybeShortenName`. The slice is taken under the guard
`0 < size < len`, where it cannot go out of range. -/
def maybeShortenName (p : powerline) (pathSegment : GoString) : GoString :=
  if p.args.CwdMaxDirSize > 0 ∧ (pathSegment.length : Int) > p.args.CwdMaxDirSize then
    pathSegment.take p.args.CwdMaxDirSize.toNat
  else pathSegment

/-- Go `strings.Replace(s, old, new, -1)` for a pattern `old` of one byte. -/
def Replace (s : GoString) (old : UInt8) (new : GoString) : GoString :=
  s.flatMap (fun b => if b = old then new else [b])

/-- The function `escapeVariables`: backslash, backtick and dollar, in this order. -/
def escapeVariables (p : powerline) (pathSegment : GoString) : GoString :=
  let s1 := Replace pathSegment 92 p.shellInfo.escapedBackslash
  let s2 := Replace s1 96 p.shellInfo.escapedBacktick
  Replace s2 36 p.shellInfo.escapedDollar

/-- The function `getColor`: foreground and background. -/
def getColor (p : powerline) (pathSegment : pathSegment) (isLastDir : Bool) :
    UInt8 × UInt8 :=
  if pathSegment.home && p.theme.HomeSpecialDisplay then (p.theme.HomeFg, p.theme.HomeBg)
  else if isLastDir then (p.theme.CwdFg, p.theme.PathBg)
  else (p.theme.PathFg, p.theme.PathBg)

/-- Lines 163-180 of `segmentCwd`: the truncation of a sequence longer than
`maxDepth`. -/
def segmentCwd_truncate (pathSegments : List pathSegment) (maxDepth : Int) :
    Except Fault (List pathSegment) := do
  let nBefore : Int := if maxDepth > 2 then 2 else maxDepth - 1
  let firstPart ← sliceTo pathSegments nBefore
  let secondPart ← sliceFrom pathSegments ((pathSegments.length : Int) + nBefore - maxDepth)
  pure (firstPart ++ [{ path := ellipsis, ellipsis := true }] ++ secondPart)

/-- Lines 159-181 of `segmentCwd`: the depth limit of the default mode. Gives the
prompt state (with the advisory, if any) and the sequence to render. -/
def segmentCwd_limit (p : powerline) (pathSegments : List pathSegment) :
    Except Fault (powerline × List pathSegment) :=
  let maxDepth := p.args.CwdMaxDepth
  if maxDepth ≤ 0 then
    pure (warn p (str "Ignoring -cwd-max-depth argument since it's smaller than or equal to 0"),
          pathSegments)
  else if (pathSegments.length : Int) > maxDepth then do
    let truncated ← segmentCwd_truncate pathSegments maxDepth
    pure (p, truncated)
  else pure (p, pathSegments)

/-- Lines 184-201 of `segmentCwd`: the origin tag and the segment built by the body of the
rendering loop, for the segment at index `idx` of a sequence of length `len`. -/
def segmentCwd_entry (p : powerline) (len : Nat) (idx : Nat) (pathSegment : pathSegment) :
    GoString × segment :=
  let isLastDir : Bool := (idx : Int) == (len : Int) - 1
  let (foreground, background) := getColor p pathSegment isLastDir
  let seg : segment :=
    { content := escapeVariables p (maybeShortenName p pathSegment.path),
      foreground := foreground, background := background }
  let seg : segment :=
    if !(pathSegment.home && p.theme.HomeSpecialDisplay) && !isLastDir then
      { seg with separator := p.SeparatorThin, separatorForeground := p.theme.SeparatorFg }
    else seg
  let origin := if isLastDir then str "cwd" else str "cwd-path"
  (origin, seg)

/-- Lines 184-203 of `segmentCwd`: the body of the rendering loop, which hands the entry
to `appendSegment`. -/
def segmentCwd_render (p : powerline) (len : Nat) (idx : Nat) (pathSegment : pathSegment) :
    powerline :=
  appendSegment p (segmentCwd_entry p len idx pathSegment).1
    (segmentCwd_entry p len idx pathSegment).2

/-- Lines 183-204 of `segmentCwd`: the rendering loop over the (possibly truncated)
sequence. -/
def segmentCwd_loop (p : powerline) (pathSegments : List pathSegment) : powerline :=
  (List.enum pathSegments).foldl
    (fun q (x : Nat × pathSegment) => segmentCwd_render q pathSegments.length x.1 x.2) p

/-- Lines 159-204 of `segmentCwd`: the default mode, from the sequence returned by
`cwdToPathSegments`: the depth limit, then the rendering loop. -/
def segmentCwd_default (p : powerline) (pathSegments : List pathSegment) :
    Except Fault powerline := do
  let (p, pathSegments) ← segmentCwd_limit p pathSegments
  pure (segmentCwd_loop p pathSegments)

/-- The function `segmentCwd`. In the `dironly` branch the sequence is cut to its
last segment and the branch ends; the rendering loop belongs to the default
branch. -/
def segmentCwd (env : Env) (fs : FS) (fuel : Nat) (p : powerline) : Except Fault powerline := do
  let cwd := if p.cwd = str "" then (LookupEnv env (str "PWD")).1 else p.cwd
  if p.args.CwdMode = str "plain" then
    let home := (LookupEnv env (str "HOME")).1
    let cwd ← if HasPrefix cwd home = true then do
                let rest ← sliceFrom cwd (home.length : Int)
                pure (str "~" ++ rest)
              else pure cwd
    pure (appendSegment p (str "cwd")
      { content := cwd, foreground := p.theme.CwdFg, background := p.theme.PathBg })
  else
    let pathSegments ← cwdToPathSegments env fs fuel cwd
    if p.args.CwdMode = str "dironly" then
      let _pathSegments ← sliceFrom pathSegments ((pathSegments.length : Int) - 1)
      pure p
    else
      segmentCwd_default p pathSegments

/-! ## Concrete inputs -/

/-- The ellipsis segment inserted by the truncation. -/
def ellipsisSegment : pathSegment := { path := str "…", ellipsis := true }

/-- The sequence `["~","a","b","c","d","e"]` of the end-to-end example. -/
def exampleSegments : List pathSegment :=
  [{ path := str "~", home := true }, { path := str "a" }, { path := str "b" },
   { path := str "c" }, { path := str "d" }, { path := str "e" }]

/-- A prompt state for the directory `/home/u/a/b/c/d/e` with the given mode and
depth limit. -/
def examplePowerline (mode : String) (maxDepth : Int) : powerline :=
  { cwd := str "/home/u/a/b/c/d/e",
    args := { CwdMode := str mode, CwdMaxDepth := maxDepth, CwdMaxDirSize := -1 },
    theme := { HomeSpecialDisplay := true, HomeFg := 15, HomeBg := 31, CwdFg := 254,
               PathFg := 250, PathBg := 237, SeparatorFg := 244 },
    shellInfo := { escapedBackslash := str "\\\\", escapedBacktick := str "\\`",
                   escapedDollar := str "\\$" },
    SeparatorThin := str ">" }

/-- An environment with `HOME=/home/u` and `GOPATH` as given (unset when empty). -/
def exampleEnv (gopath : String) : Env := fun key =>
  if key = str "HOME" then some (str "/home/u")
  else if key = str "GOPATH" ∧ gopath ≠ "" then some (str gopath)
  else none

/-- The file system in which exactly the listed path names exist. -/
def filesOf (names : List String) : FS := fun path => names.any (fun n => str n == path)

/-! ## Definitions of the statements and proofs -/

/-- The number of bytes of a list of names, each counted with one separator. -/
def weight : List GoString → Nat
  | [] => 0
  | x :: xs => x.length + 1 + weight xs

/-- The bytes a path element can add to the cleaned path. -/
def elemCost (e : GoString) : Nat := if e = [] then 0 else e.length + 1

/-- The bytes the elements of a path can add to the cleaned path. -/
def elemsCost : List GoString → Nat
  | [] => 0
  | e :: es => elemCost e + elemsCost es

/-- The value of `names` after lines 81-85: the pieces of the trimmed path, without a
leading empty one. -/
def splitNames (cwd : GoString) : List GoString :=
  match Split slash (Trim cwd slash) with
  | [] => []
  | n0 :: rest => if n0 = [] then rest else n0 :: rest

/-- The value of `names` after the skip step (lines 87-92), for a skip count that is not
negative. -/
def skipNames (names : List GoString) (skip : Int) : List GoString :=
  if skip < (names.length : Int) then names.drop skip.toNat
  else if 2 ≤ names.length then names.drop (names.length - 1)
  else names

/-- A candidate of the chain: neither `/` nor the empty string. -/
def isCandidate (c : GoString) : Bool := !(c == str "/" || c == str "")

/-- The ascending chain `cwd, Dir(cwd), Dir(Dir(cwd)), ...` of an absolute path `cwd`,
taken strictly before it reaches `/` or the empty string (`len(cwd)` entries are enough to
reach `/`). -/
def ancestorChain (cwd : GoString) : List GoString :=
  (List.iterate Dir cwd cwd.length).takeWhile isCandidate

/-- The nearest candidate of the chain that contains the marker `.git`, with `true`; the
empty string and `false` when no candidate does. -/
def nearestRoot (fs : FS) (cwd : GoString) : GoString × Bool :=
  match (ancestorChain cwd).find? (fun c => «exists» fs [c, str ".git"]) with
  | some c => (c, true)
  | none => (str "", false)

/-- The fixed priority table of the ecosystem markers: marker name and label. -/
def markerTable : List (GoString × GoString) :=
  [(str "package.json", str "JS"), (str "composer.json", str "🐘"),
   (str "Gemfile", str "💎"), (str "cpanfile", str "🐪"), (str "__pycache__", str "Py")]

/-- The label of the first marker of the table that exists at `root`; the generic
version-control label when none exists. -/
def firstMarkerLabel (fs : FS) (root : GoString) : GoString :=
  match markerTable.find? (fun m => «exists» fs [root, m.1]) with
  | some m => m.2
  | none => str "Git"

/-- A path component: not empty and without the separator. -/
abbrev isName (c : GoString) : Prop := c ≠ [] ∧ slash ∉ c

/-- A component of a clean path: a name other than `.` and `..`. -/
abbrev isCleanName (c : GoString) : Prop := isName c ∧ c ≠ [dot] ∧ c ≠ [dot, dot]

/-- The absolute path `/c1/.../cn` (the path `/` for no component). -/
def absPath (comps : List GoString) : GoString := slash :: Join comps [slash]

/-- The advisory of line 161. -/
def depthAdvisory : GoString :=
  str "Ignoring -cwd-max-depth argument since it's smaller than or equal to 0"

/-- The entries handed to the rendering sink for a sequence, in order. -/
def renderedEntries (p : powerline) (pathSegments : List pathSegment) :
    List (GoString × segment) :=
  (List.enum pathSegments).map
    (fun x => segmentCwd_entry p pathSegments.length x.1 x.2)

/-- The path `base/c1/.../cn`: `base` itself for no name. -/
def below (base : GoString) (comps : List GoString) : GoString :=
  match comps with
  | [] => base
  | c :: cs => base ++ absPath (c :: cs)

/-! # Theorems -/

theorem bind_ok_eq {α β : Type} (a : α) (f : α → Except Fault β) :
    (Except.ok a >>= f) = f a := rfl

theorem sliceTo_ok {α : Type} (s : List α) (n : Int) (h0 : 0 ≤ n) (h1 : n ≤ (s.length : Int)) :
    sliceTo s n = .ok (s.take n.toNat) := by
  simp [sliceTo, h0, h1]

theorem sliceFrom_ok {α : Type} (s : List α) (n : Int) (h0 : 0 ≤ n) (h1 : n ≤ (s.length : Int)) :
    sliceFrom s n = .ok (s.drop n.toNat) := by
  simp [sliceFrom, h0, h1]

theorem segmentCwd_truncate_eq (segs : List pathSegment) (D : Int)
    (hD : 0 < D) (hL : D < (segs.length : Int)) :
    segmentCwd_truncate segs D =
      .ok (segs.take (min 2 (D - 1)).toNat ++ [ellipsisSegment] ++
            segs.drop (segs.length + (min 2 (D - 1)).toNat - D.toNat)) := by
  unfold segmentCwd_truncate
  by_cases h2 : D > 2
  · have hmin : min 2 (D - 1) = 2 := by omega
    simp only [h2, if_true, hmin]
    rw [sliceTo_ok _ _ (by omega) (by omega), sliceFrom_ok _ _ (by omega) (by omega)]
    simp only [bind_ok_eq, pure, Except.pure, ellipsisSegment, ellipsis]
    congr 3
    omega
  · have hmin : min 2 (D - 1) = D - 1 := by omega
    simp only [h2, if_false, hmin]
    rw [sliceTo_ok _ _ (by omega) (by omega), sliceFrom_ok _ _ (by omega) (by omega)]
    simp only [bind_ok_eq, pure, Except.pure, ellipsisSegment, ellipsis]
    congr 3
    omega

theorem cwdToPathSegments_ok {env : Env} {fs : FS} {fuel : Nat} {cwd : GoString}
    {segs : List pathSegment} (h : cwdToPathSegments env fs fuel cwd = .ok segs) :
    ∃ g b st names names2,
      searchGitRoot fs fuel cwd = .ok (g, b) ∧
      cwdToPathSegments_branch env fs g cwd = .ok st ∧
      cwdToPathSegments_split st.cwd = .ok names ∧
      cwdToPathSegments_skip names st.skip = .ok names2 ∧
      segs = cwdToPathSegments_emit st.pathSegments names2 st.joined := by
  unfold cwdToPathSegments at h
  cases h1 : searchGitRoot fs fuel cwd with
  | error e => simp [h1, bind, Except.bind] at h
  | ok gb =>
    obtain ⟨g, b⟩ := gb
    cases h2 : cwdToPathSegments_branch env fs g cwd with
    | error e => simp [h1, h2, bind, Except.bind] at h
    | ok st =>
      cases h3 : cwdToPathSegments_split st.cwd with
      | error e => simp [h1, h2, h3, bind, Except.bind] at h
      | ok names =>
        cases h4 : cwdToPathSegments_skip names st.skip with
        | error e => simp [h1, h2, h3, h4, bind, Except.bind] at h
        | ok names2 =>
          simp [h1, h2, h3, h4, bind, Except.bind, pure, Except.pure] at h
          exact ⟨g, b, st, names, names2, rfl, h2, h3, h4, h.symm⟩

theorem cwdToPathSegments_of_parts {env : Env} {fs : FS} {fuel : Nat} {cwd g : GoString}
    {b : Bool} {st : Locals} {names names2 : List GoString}
    (h1 : searchGitRoot fs fuel cwd = .ok (g, b))
    (h2 : cwdToPathSegments_branch env fs g cwd = .ok st)
    (h3 : cwdToPathSegments_split st.cwd = .ok names)
    (h4 : cwdToPathSegments_skip names st.skip = .ok names2) :
    cwdToPathSegments env fs fuel cwd =
      .ok (cwdToPathSegments_emit st.pathSegments names2 st.joined) := by
  unfold cwdToPathSegments
  simp [h1, h2, h3, h4, bind, Except.bind, pure, Except.pure]

theorem sliceFrom_eq_ok {α : Type} {s r : List α} {n : Int} (h : sliceFrom s n = .ok r) :
    0 ≤ n ∧ n ≤ (s.length : Int) ∧ r = s.drop n.toNat := by
  unfold sliceFrom at h
  split at h
  · rename_i hc
    injection h with h
    exact ⟨hc.1, hc.2, h.symm⟩
  · cases h

theorem bind_eq_ok {α β : Type} {x : Except Fault α} {f : α → Except Fault β} {b : β} :
    (x >>= f) = .ok b ↔ ∃ a, x = .ok a ∧ f a = .ok b := by
  cases x with
  | error e => simp [bind, Except.bind]
  | ok a => simp [bind, Except.bind]

theorem pure_eq_ok {α : Type} {a b : α} : (pure a : Except Fault α) = .ok b ↔ a = b := by
  simp [pure, Except.pure]

/-- The outcomes of the `if` chain of `cwdToPathSegments`, branch by branch. -/
theorem branch_cases {env : Env} {fs : FS} {g cwd : GoString} {st : Locals}
    (h : cwdToPathSegments_branch env fs g cwd = .ok st) :
    (∃ rest, st = { pathSegments := [{ path := str "🐭", home := true }],
                    cwd := rest, skip := 2, joined := true }) ∨
    (∃ rest, st = { pathSegments := [{ path := icon fs g, home := true }],
                    cwd := rest, skip := 0, joined := true }) ∨
    (∃ rest, st = { pathSegments := [{ path := str "~", home := true }],
                    cwd := rest, skip := 0, joined := false }) ∨
    (st = { pathSegments := [{ path := str "/", root := true }],
            cwd := cwd, skip := 0, joined := false }) ∨
    (st = { pathSegments := [], cwd := cwd, skip := 0, joined := false } ∧
      cwd ≠ str "/") := by
  unfold cwdToPathSegments_branch at h
  simp only [] at h
  split at h
  · obtain ⟨r, -, h⟩ := bind_eq_ok.1 h
    exact Or.inl ⟨r, (pure_eq_ok.1 h).symm⟩
  · split at h
    · obtain ⟨r, -, h⟩ := bind_eq_ok.1 h
      exact Or.inr (Or.inl ⟨r, (pure_eq_ok.1 h).symm⟩)
    · split at h
      · obtain ⟨r, -, h⟩ := bind_eq_ok.1 h
        exact Or.inr (Or.inr (Or.inl ⟨r, (pure_eq_ok.1 h).symm⟩))
      · split at h
        · exact Or.inr (Or.inr (Or.inr (Or.inl (pure_eq_ok.1 h).symm)))
        · rename_i hne
          exact Or.inr (Or.inr (Or.inr (Or.inr ⟨(pure_eq_ok.1 h).symm, hne⟩)))

/-- What the `if` chain of `cwdToPathSegments` leaves in `pathSegments`: nothing, or one
segment that is no ellipsis. -/
theorem branch_no_ellipsis {env : Env} {fs : FS} {g cwd : GoString} {st : Locals}
    (h : cwdToPathSegments_branch env fs g cwd = .ok st) :
    ∀ s ∈ st.pathSegments, s.ellipsis = false := by
  rcases branch_cases h with ⟨r, rfl⟩ | ⟨r, rfl⟩ | ⟨r, rfl⟩ | rfl | ⟨rfl, -⟩ <;> simp

theorem emit_no_ellipsis (ps : List pathSegment) (names : List GoString) (joined : Bool)
    (h : ∀ s ∈ ps, s.ellipsis = false) :
    ∀ s ∈ cwdToPathSegments_emit ps names joined, s.ellipsis = false := by
  intro s hs
  unfold cwdToPathSegments_emit at hs
  split at hs
  · split at hs
    · rcases List.mem_append.1 hs with h1 | h1
      · exact h s h1
      · simp at h1; subst h1; rfl
    · rcases List.mem_append.1 hs with h1 | h1
      · exact h s h1
      · simp at h1
        obtain ⟨n, _, rfl⟩ := h1
        rfl
  · exact h s hs

theorem cwdToPathSegments_no_ellipsis {env : Env} {fs : FS} {fuel : Nat} {cwd : GoString}
    {segs : List pathSegment} (h : cwdToPathSegments env fs fuel cwd = .ok segs) :
    ∀ s ∈ segs, s.ellipsis = false := by
  obtain ⟨g, b, st, names, names2, -, h2, -, -, rfl⟩ := cwdToPathSegments_ok h
  exact emit_no_ellipsis _ _ _ (branch_no_ellipsis h2)

theorem ellipsis_index (A B : List pathSegment) (e : pathSegment)
    (hA : ∀ s ∈ A, s.ellipsis = false) (hB : ∀ s ∈ B, s.ellipsis = false)
    (he : e.ellipsis = true) (i : Nat) (s : pathSegment)
    (hi : (A ++ [e] ++ B)[i]? = some s) : (s.ellipsis = true ↔ i = A.length) := by
  rw [List.append_assoc] at hi
  rcases Nat.lt_trichotomy i A.length with hlt | heq | hgt
  · rw [List.getElem?_append_left hlt] at hi
    have hm : s ∈ A := List.getElem?_mem hi
    have := hA s hm
    constructor
    · intro h; rw [this] at h; cases h
    · intro h; omega
  · subst heq
    rw [List.getElem?_append_right (le_refl _)] at hi
    simp at hi
    subst hi
    simp [he]
  · rw [List.getElem?_append_right (le_of_lt hgt)] at hi
    have h1 : i - A.length = (i - A.length - 1) + 1 := by omega
    rw [h1, List.singleton_append, List.getElem?_cons_succ] at hi
    have hm : s ∈ B := List.getElem?_mem hi
    have := hB s hm
    constructor
    · intro h; rw [this] at h; cases h
    · intro h; omega

theorem countP_ellipsis_zero (A : List pathSegment) (hA : ∀ s ∈ A, s.ellipsis = false) :
    A.countP (fun s => s.ellipsis) = 0 := by
  rw [List.countP_eq_zero]
  intro s hs
  simp [hA s hs]

theorem drop_length_pred {α : Type} (l : List α) (h : l ≠ []) :
    l.drop (l.length - 1) = [l.getLast h] := by
  have hl : l.length - 1 = l.dropLast.length := by simp
  have hsplit := List.dropLast_append_getLast h
  rw [hl]
  conv_lhs => rw [← hsplit]
  simp

/-! ## `strings.Split` and `strings.Join` -/

theorem Split_ne_nil (c : UInt8) (s : GoString) : Split c s ≠ [] := by
  cases s with
  | nil => simp [Split]
  | cons b bs =>
    unfold Split
    split
    · simp
    · split <;> simp

theorem Split_cons_sep (c : UInt8) (s : GoString) : Split c (c :: s) = [] :: Split c s := by
  rw [Split]; simp

theorem Split_cons_ne (c b : UInt8) (s : GoString) (h : b ≠ c) :
    ∃ w ws, Split c s = w :: ws ∧ Split c (b :: s) = (b :: w) :: ws := by
  cases hs : Split c s with
  | nil => exact absurd hs (Split_ne_nil c s)
  | cons w ws =>
    refine ⟨w, ws, rfl, ?_⟩
    rw [Split, if_neg h, hs]

theorem Join_cons_cons (a b : GoString) (rest : List GoString) (sepStr : GoString) :
    Join (a :: b :: rest) sepStr = a ++ sepStr ++ Join (b :: rest) sepStr := by
  rw [Join]

theorem Join_cons_of_ne_nil (a : GoString) (l : List GoString) (sepStr : GoString)
    (h : l ≠ []) : Join (a :: l) sepStr = a ++ sepStr ++ Join l sepStr := by
  cases l with
  | nil => exact absurd rfl h
  | cons b rest => rw [Join]

/-- Joining the pieces of a split gives the string back. -/
theorem Join_Split (c : UInt8) (s : GoString) : Join (Split c s) [c] = s := by
  induction s with
  | nil => simp [Split, Join]
  | cons b bs ih =>
    by_cases h : b = c
    · subst h
      rw [Split_cons_sep, Join_cons_of_ne_nil _ _ _ (Split_ne_nil _ _), ih]
      simp
    · obtain ⟨w, ws, h1, h2⟩ := Split_cons_ne c b bs h
      rw [h2]
      rw [h1] at ih
      cases ws with
      | nil =>
        simp only [Join] at ih ⊢
        rw [ih]
      | cons v vs =>
        rw [Join_cons_cons] at ih ⊢
        rw [← ih]
        simp

/-- A string without the separator splits into itself. -/
theorem Split_of_not_mem (c : UInt8) (s : GoString) (h : c ∉ s) : Split c s = [s] := by
  induction s with
  | nil => simp [Split]
  | cons b bs ih =>
    have hb : b ≠ c := fun hbc => h (by simp [hbc])
    have hbs : c ∉ bs := fun hm => h (List.mem_cons_of_mem _ hm)
    rw [Split, if_neg hb, ih hbs]

/-- Splitting distributes over a separator. -/
theorem Split_append_sep (c : UInt8) (a b : GoString) :
    Split c (a ++ c :: b) = (Split c a).dropLast ++
      [((Split c a).getLast (Split_ne_nil c a))] ++ Split c b := by
  rw [List.dropLast_append_getLast]
  induction a with
  | nil => simp [Split]
  | cons x xs ih =>
    by_cases h : x = c
    · subst h
      rw [List.cons_append, Split_cons_sep, Split_cons_sep, ih]
      simp
    · obtain ⟨w, ws, h1, h2⟩ := Split_cons_ne c x xs h
      obtain ⟨w2, ws2, h3, h4⟩ := Split_cons_ne c x (xs ++ c :: b) h
      rw [List.cons_append, h4, h2]
      rw [h1] at ih
      rw [h3] at ih
      simp at ih
      simp [ih.1, ih.2]

theorem Split_append_sep_eq (c : UInt8) (a b : GoString) :
    Split c (a ++ c :: b) = Split c a ++ Split c b := by
  rw [Split_append_sep, List.dropLast_append_getLast]

/-- Splitting joined names gives the names back, when no name holds the separator. -/
theorem Split_Join (c : UInt8) (names : List GoString) (hne : names ≠ [])
    (h : ∀ x ∈ names, c ∉ x) : Split c (Join names [c]) = names := by
  induction names with
  | nil => exact absurd rfl hne
  | cons a rest ih =>
    cases rest with
    | nil =>
      simp only [Join]
      exact Split_of_not_mem c a (h a (by simp))
    | cons b rest2 =>
      rw [Join_cons_cons]
      have : a ++ [c] ++ Join (b :: rest2) [c] = a ++ c :: Join (b :: rest2) [c] := by simp
      rw [this, Split_append_sep_eq, Split_of_not_mem c a (h a (by simp)),
        ih (by simp) (fun x hx => h x (List.mem_cons_of_mem _ hx))]
      rfl

theorem weight_append (l1 l2 : List GoString) : weight (l1 ++ l2) = weight l1 + weight l2 := by
  induction l1 with
  | nil => simp [weight]
  | cons x xs ih => simp [weight, ih]; omega

theorem length_Join (l : List GoString) (c : UInt8) (h : l ≠ []) :
    (Join l [c]).length + 1 = weight l := by
  induction l with
  | nil => exact absurd rfl h
  | cons a rest ih =>
    cases rest with
    | nil => simp [Join, weight]
    | cons b rest2 =>
      rw [Join_cons_cons]
      have := ih (by simp)
      simp only [List.length_append, List.length_singleton, weight] at this ⊢
      omega

theorem weight_Split (c : UInt8) (s : GoString) : weight (Split c s) = s.length + 1 := by
  have h := length_Join (Split c s) c (Split_ne_nil c s)
  rw [Join_Split] at h
  exact h.symm

/-! ## `filepath.Clean` and `filepath.Dir` never lengthen a path -/

theorem weight_cleanStep (rooted : Bool) (stack : List GoString) (e : GoString) :
    weight (cleanStep rooted stack e) ≤ weight stack + elemCost e := by
  unfold cleanStep
  split
  · omega
  · rename_i h1
    have hne : e ≠ [] := fun h => h1 (Or.inl h)
    split
    · split
      · split
        · split
          · omega
          · simp [weight, elemCost, hne]; omega
        · simp [weight]; omega
      · split
        · omega
        · simp [weight, elemCost, hne]
    · simp [weight, elemCost, hne]; omega

theorem weight_foldl_cleanStep (rooted : Bool) (es : List GoString) (stack : List GoString) :
    weight (es.foldl (cleanStep rooted) stack) ≤ weight stack + elemsCost es := by
  induction es generalizing stack with
  | nil => simp [elemsCost]
  | cons e es ih =>
    simp only [List.foldl_cons, elemsCost]
    have h1 := ih (cleanStep rooted stack e)
    have h2 := weight_cleanStep rooted stack e
    omega

theorem elemCost_le (e : GoString) : elemCost e ≤ e.length + 1 := by
  unfold elemCost; split <;> omega

theorem elemsCost_le_weight (es : List GoString) : elemsCost es ≤ weight es := by
  induction es with
  | nil => simp [elemsCost, weight]
  | cons e es ih =>
    simp only [elemsCost, weight]
    have := elemCost_le e
    omega

theorem elemsCost_append (l1 l2 : List GoString) :
    elemsCost (l1 ++ l2) = elemsCost l1 + elemsCost l2 := by
  induction l1 with
  | nil => simp [elemsCost]
  | cons x xs ih => simp [elemsCost, ih]; omega

theorem weight_reverse (l : List GoString) : weight l.reverse = weight l := by
  induction l with
  | nil => rfl
  | cons x xs ih => simp [weight_append, weight, ih]; omega

/-- The length of a cleaned rooted path, from the weight of its element stack. -/
theorem length_Clean_rooted (rest : GoString) :
    (Clean (slash :: rest)).length ≤
      max 1 (weight ((Split slash rest).foldl (cleanStep true) [])) := by
  unfold Clean
  simp only [List.head?_cons, decide_True, if_true, Split_cons_sep, List.foldl_cons]
  have h0 : cleanStep true [] [] = [] := by simp [cleanStep]
  rw [h0]
  generalize (Split slash rest).foldl (cleanStep true) [] = st
  by_cases hst : st = []
  · subst hst; simp [Join, weight]
  · have hr : st.reverse ≠ [] := by simpa using hst
    have := length_Join st.reverse slash hr
    rw [weight_reverse] at this
    simp only [List.length_cons]
    omega

/-- A rooted path does not grow when cleaned. -/
theorem length_Clean_rooted_le (rest : GoString) :
    (Clean (slash :: rest)).length ≤ (slash :: rest).length := by
  have h1 := length_Clean_rooted rest
  have h2 := weight_foldl_cleanStep true (Split slash rest) []
  have h3 := elemsCost_le_weight (Split slash rest)
  have h4 := weight_Split slash rest
  simp only [weight, List.length_cons] at *
  omega

/-- A rooted path with a trailing separator, other than `/`, shrinks when cleaned. -/
theorem length_Clean_rooted_trailing (mid : GoString) :
    (Clean (slash :: (mid ++ [slash]))).length < (slash :: (mid ++ [slash])).length := by
  have h1 := length_Clean_rooted (mid ++ [slash])
  have h2 := weight_foldl_cleanStep true (Split slash (mid ++ [slash])) []
  have h5 : Split slash (mid ++ [slash]) = Split slash mid ++ [[]] := by
    rw [Split_append_sep_eq]; simp [Split]
  have h3 := elemsCost_le_weight (Split slash mid)
  have h4 := weight_Split slash mid
  rw [h5] at h1
  rw [h5, elemsCost_append] at h2
  simp only [weight, List.length_cons, List.length_append, List.length_singleton, elemsCost,
    elemCost, if_true, List.length_nil] at *
  omega

/-- A non-empty path does not grow when cleaned. -/
theorem length_Clean_le (path : GoString) (hne : path ≠ []) :
    (Clean path).length ≤ path.length := by
  cases path with
  | nil => exact absurd rfl hne
  | cons b rest =>
    by_cases hb : b = slash
    · subst hb; exact length_Clean_rooted_le rest
    · unfold Clean
      have hr : ((b :: rest).head? = some slash) = False := by simp [hb]
      simp only [hr, decide_False, Bool.false_eq_true, if_false]
      have h2 := weight_foldl_cleanStep false (Split slash (b :: rest)) []
      have h3 := elemsCost_le_weight (Split slash (b :: rest))
      have h4 := weight_Split slash (b :: rest)
      generalize (Split slash (b :: rest)).foldl (cleanStep false) [] = st at h2 ⊢
      by_cases hst : st = []
      · subst hst; simp [Join]
      · have hr2 : st.reverse ≠ [] := by simpa using hst
        have h5 := length_Join st.reverse slash hr2
        rw [weight_reverse] at h5
        split
        · simp
        · simp only [weight, List.length_cons] at *
          omega

/-- A cleaned rooted path is rooted. -/
theorem head_Clean_rooted (rest : GoString) : (Clean (slash :: rest)).head? = some slash := by
  unfold Clean
  simp

theorem str_empty : str "" = [] := by decide

theorem str_slash : str "/" = [slash] := by decide

theorem rdropWhile_cons {α : Type} (p : α → Bool) (a : α) (l : List α) :
    (l.rdropWhile p = [] → (a :: l).rdropWhile p = if p a then [] else [a]) ∧
      (l.rdropWhile p ≠ [] → (a :: l).rdropWhile p = a :: l.rdropWhile p) := by
  induction l using List.reverseRecOn with
  | nil => by_cases h : p a <;> simp [List.rdropWhile, h]
  | append_singleton l x ih =>
    rw [← List.cons_append, List.rdropWhile_concat, List.rdropWhile_concat]
    by_cases hx : p x
    · simp only [hx, if_true]; exact ih
    · simp [hx]

/-- The part of a rooted path before its last element: the leading `/` stays. -/
theorem rdropWhile_rooted (rest : GoString) :
    (slash :: rest).rdropWhile (fun b => b != slash) =
      slash :: rest.rdropWhile (fun b => b != slash) := by
  by_cases h : rest.rdropWhile (fun b => b != slash) = []
  · rw [(rdropWhile_cons _ slash rest).1 h, h]; simp
  · exact (rdropWhile_cons _ slash rest).2 h

theorem rdropWhile_nil_or_trailing (x : GoString) :
    x.rdropWhile (fun b => b != slash) = [] ∨
      ∃ mid, x.rdropWhile (fun b => b != slash) = mid ++ [slash] := by
  by_cases h : x.rdropWhile (fun b => b != slash) = []
  · exact Or.inl h
  · right
    have hl := List.rdropWhile_last_not (fun b => b != slash) x h
    refine ⟨(x.rdropWhile (fun b => b != slash)).dropLast, ?_⟩
    have := List.dropLast_append_getLast h
    simp only [bne_iff_ne, ne_eq, Decidable.not_not] at hl
    rw [hl] at this
    exact this.symm

theorem length_rdropWhile_le {α : Type} (p : α → Bool) (l : List α) :
    (l.rdropWhile p).length ≤ l.length :=
  (List.rdropWhile_prefix p l).length_le

theorem Clean_slash : Clean [slash] = [slash] := by decide

theorem Clean_nil : Clean [] = [dot] := by decide

/-- `filepath.Dir` of a non-empty path is no longer than the path. -/
theorem length_Dir_le (x : GoString) (hne : x ≠ []) : (Dir x).length ≤ x.length := by
  unfold Dir
  by_cases h : x.rdropWhile (fun b => b != slash) = []
  · rw [h, Clean_nil]
    cases x with
    | nil => exact absurd rfl hne
    | cons b bs => simp
  · exact le_trans (length_Clean_le _ h) (length_rdropWhile_le _ _)

/-- `filepath.Dir` of a rooted path is rooted. -/
theorem head_Dir_rooted (rest : GoString) : (Dir (slash :: rest)).head? = some slash := by
  unfold Dir
  rw [rdropWhile_rooted]
  exact head_Clean_rooted _

/-- `filepath.Dir` of a rooted path other than `/` is shorter than the path. -/
theorem length_Dir_lt (rest : GoString) (hne : rest ≠ []) :
    (Dir (slash :: rest)).length < (slash :: rest).length := by
  unfold Dir
  rw [rdropWhile_rooted]
  rcases rdropWhile_nil_or_trailing rest with h | ⟨mid, h⟩
  · rw [h, Clean_slash]
    cases rest with
    | nil => exact absurd rfl hne
    | cons b bs => simp
  · rw [h]
    have h1 := length_Clean_rooted_trailing mid
    have h2 := length_rdropWhile_le (fun b => b != slash) rest
    rw [h] at h2
    simp only [List.length_cons, List.length_append, List.length_singleton] at *
    omega

/-- What `searchGitRoot` can return: nothing found, or a non-empty candidate other than `/`,
no longer than the starting directory, that holds the marker. -/
theorem searchGitRoot_result (fs : FS) (fuel : Nat) (cwd g : GoString) (b : Bool)
    (h : searchGitRoot fs fuel cwd = .ok (g, b)) :
    (g = [] ∧ b = false) ∨
      (b = true ∧ g ≠ [] ∧ g ≠ [slash] ∧ g.length ≤ cwd.length ∧
        «exists» fs [g, str ".git"] = true) := by
  induction fuel generalizing cwd with
  | zero =>
    unfold searchGitRoot at h
    rw [str_empty, str_slash] at h
    split at h
    · injection h with h; injection h with h1 h2
      exact Or.inl ⟨h1.symm, h2.symm⟩
    · rename_i hc
      split at h
      · rename_i he
        injection h with h; injection h with h1 h2
        subst h1
        exact Or.inr ⟨h2.symm, fun h => hc (Or.inr h), fun h => hc (Or.inl h), le_refl _, he⟩
      · cases h
  | succ n ih =>
    unfold searchGitRoot at h
    rw [str_empty, str_slash] at h
    split at h
    · injection h with h; injection h with h1 h2
      exact Or.inl ⟨h1.symm, h2.symm⟩
    · rename_i hc
      split at h
      · rename_i he
        injection h with h; injection h with h1 h2
        subst h1
        exact Or.inr ⟨h2.symm, fun h => hc (Or.inr h), fun h => hc (Or.inl h), le_refl _, he⟩
      · rcases ih (Dir cwd) h with h1 | ⟨h1, h2, h3, h4, h5⟩
        · exact Or.inl h1
        · have := length_Dir_le cwd (fun h => hc (Or.inr h))
          exact Or.inr ⟨h1, h2, h3, by omega, h5⟩

/-- From an absolute starting directory `searchGitRoot` returns, within `len(cwd) - 1`
ascents. -/
theorem searchGitRoot_terminates (fs : FS) (fuel : Nat) (cwd : GoString)
    (habs : cwd.head? = some slash) (hfuel : cwd.length ≤ fuel + 1) :
    ∃ r, searchGitRoot fs fuel cwd = .ok r := by
  induction fuel generalizing cwd with
  | zero =>
    cases cwd with
    | nil => simp at habs
    | cons b rest =>
      simp at habs hfuel
      subst habs; subst hfuel
      unfold searchGitRoot
      rw [str_slash]
      simp
  | succ n ih =>
    cases cwd with
    | nil => simp at habs
    | cons b rest =>
      simp at habs
      subst habs
      unfold searchGitRoot
      rw [str_empty, str_slash]
      split
      · exact ⟨_, rfl⟩
      · rename_i hc
        split
        · exact ⟨_, rfl⟩
        · have hrest : rest ≠ [] := fun h => hc (Or.inl (by rw [h]))
          have hlt := length_Dir_lt rest hrest
          exact ih (Dir (slash :: rest)) (head_Dir_rooted rest) (by omega)

/-! ## `cwdToPathSegments` never panics -/

theorem HasPrefix_length {s pre : GoString} (h : HasPrefix s pre = true) :
    pre.length ≤ s.length := by
  unfold HasPrefix at h
  exact (List.isPrefixOf_iff_prefix.1 h).length_le

theorem HasPrefix_append {s pre : GoString} (h : HasPrefix s pre = true) :
    s = pre ++ s.drop pre.length := by
  unfold HasPrefix at h
  obtain ⟨t, ht⟩ := List.isPrefixOf_iff_prefix.1 h
  rw [← ht]
  simp

/-- The `if` chain returns normally once the slice by `len(filepath.Dir(gitRoot))` is in
range. -/
theorem branch_total (env : Env) (fs : FS) (g cwd : GoString)
    (hg : g = [] ∨ (Dir g).length ≤ cwd.length) :
    ∃ st, cwdToPathSegments_branch env fs g cwd = .ok st := by
  unfold cwdToPathSegments_branch
  simp only []
  split
  · rename_i h
    rw [sliceFrom_ok _ _ (by omega) (by exact_mod_cast HasPrefix_length h.2)]
    exact ⟨_, rfl⟩
  · split
    · rename_i h
      rw [str_empty] at h
      have hl : (Dir g).length ≤ cwd.length := hg.resolve_left h
      rw [sliceFrom_ok _ _ (by omega) (by exact_mod_cast hl)]
      exact ⟨_, rfl⟩
    · split
      · rename_i h
        rw [sliceFrom_ok _ _ (by omega) (by exact_mod_cast HasPrefix_length h)]
        exact ⟨_, rfl⟩
      · split
        · exact ⟨_, rfl⟩
        · exact ⟨_, rfl⟩

/-- Lines 81-85 return normally. -/
theorem split_eq (cwd : GoString) :
    cwdToPathSegments_split cwd = .ok (splitNames cwd) := by
  unfold cwdToPathSegments_split splitNames
  simp only []
  cases h : Split slash (Trim cwd slash) with
  | nil => exact absurd h (Split_ne_nil _ _)
  | cons n0 rest =>
    simp only [str_empty]
    split
    · rw [sliceFrom_ok _ _ (by omega) (by simp)]
      simp
    · rfl

/-- The skip step returns normally for a skip count that is not negative. -/
theorem skip_eq (names : List GoString) (skip : Int) (h0 : 0 ≤ skip) :
    cwdToPathSegments_skip names skip = .ok (skipNames names skip) := by
  unfold cwdToPathSegments_skip skipNames
  simp only []
  split
  · rw [sliceFrom_ok _ _ h0 (by omega)]
  · split
    · rename_i h1 h2
      have h3 : 2 ≤ names.length := by exact_mod_cast h2
      unfold sliceFromTo
      rw [if_pos (by omega), if_pos h3]
      congr 1
      have e1 : ((names.length : Int)).toNat = names.length := by simp
      have e2 : ((names.length : Int) - 1).toNat = names.length - 1 := by omega
      rw [e1, e2, List.take_length]
    · rename_i h1 h2
      have h3 : ¬ 2 ≤ names.length := by
        intro h; exact h2 (by exact_mod_cast h)
      rw [if_neg h3]
      rfl

theorem branch_skip_nonneg {env : Env} {fs : FS} {g cwd : GoString} {st : Locals}
    (h : cwdToPathSegments_branch env fs g cwd = .ok st) : 0 ≤ st.skip := by
  rcases branch_cases h with ⟨r, rfl⟩ | ⟨r, rfl⟩ | ⟨r, rfl⟩ | rfl | ⟨rfl, -⟩ <;> simp

/-- Whenever `searchGitRoot` returns, `cwdToPathSegments` returns: none of its slices goes
out of range. -/
theorem cwdToPathSegments_returns (env : Env) (fs : FS) (fuel : Nat) (cwd g : GoString)
    (b : Bool) (h : searchGitRoot fs fuel cwd = .ok (g, b)) :
    ∃ st,
      cwdToPathSegments_branch env fs g cwd = .ok st ∧
      cwdToPathSegments env fs fuel cwd =
        .ok (cwdToPathSegments_emit st.pathSegments
              (skipNames (splitNames st.cwd) st.skip) st.joined) := by
  have hg : g = [] ∨ (Dir g).length ≤ cwd.length := by
    rcases searchGitRoot_result fs fuel cwd g b h with ⟨h1, -⟩ | ⟨-, h2, -, h4, -⟩
    · exact Or.inl h1
    · exact Or.inr (le_trans (length_Dir_le g h2) h4)
  obtain ⟨st, hst⟩ := branch_total env fs g cwd hg
  have h3 := split_eq st.cwd
  have h4 := skip_eq (splitNames st.cwd) st.skip (branch_skip_nonneg hst)
  exact ⟨st, hst, cwdToPathSegments_of_parts h hst h3 h4⟩

/-- The names are appended to the segments of the `if` chain. -/
theorem emit_ne_nil (ps : List pathSegment) (names : List GoString) (joined : Bool)
    (h : ps ≠ [] ∨ names ≠ []) : cwdToPathSegments_emit ps names joined ≠ [] := by
  unfold cwdToPathSegments_emit
  split
  · rename_i hl
    have hn : names ≠ [] := by
      intro h; rw [h] at hl; simp at hl
    split <;> simp [hn]
  · rename_i hl
    rcases h with h | h
    · exact h
    · exact absurd (List.length_pos.2 h) hl

/-- A path with a byte other than `/` keeps a non-empty first name after trimming. -/
theorem Split_Trim_head (cwd : GoString) (h : ∃ b ∈ cwd, b ≠ slash) :
    ∃ n0 rest, Split slash (Trim cwd slash) = n0 :: rest ∧ n0 ≠ [] := by
  unfold Trim
  have hd : cwd.dropWhile (fun b => b == slash) ≠ [] := by
    intro hnil
    obtain ⟨b, hb, hne⟩ := h
    have := (List.dropWhile_eq_nil_iff.1 hnil) b hb
    simp at this
    exact hne this
  have hhead := List.head_dropWhile_not (fun b => b == slash) cwd hd
  cases hdw : cwd.dropWhile (fun b => b == slash) with
  | nil => exact absurd hdw hd
  | cons x xs =>
    simp only [hdw, List.head_cons] at hhead
    have hx : x ≠ slash := by simpa using hhead
    have hstart : ∃ t, (x :: xs).rdropWhile (fun b => b == slash) = x :: t := by
      by_cases hn : xs.rdropWhile (fun b => b == slash) = []
      · rw [(rdropWhile_cons _ x xs).1 hn]
        simp [hx]
      · rw [(rdropWhile_cons _ x xs).2 hn]
        exact ⟨_, rfl⟩
    obtain ⟨t, ht⟩ := hstart
    rw [ht]
    obtain ⟨w, ws, -, h2⟩ := Split_cons_ne slash x t hx
    exact ⟨x :: w, ws, h2, by simp⟩

/-! ## Fuel -/

/-- More fuel does not change a result of `searchGitRoot`. -/
theorem searchGitRoot_mono (fs : FS) (n : Nat) (cwd : GoString) (r : GoString × Bool)
    (h : searchGitRoot fs n cwd = .ok r) (m : Nat) (hm : n ≤ m) :
    searchGitRoot fs m cwd = .ok r := by
  induction n generalizing cwd m with
  | zero =>
    unfold searchGitRoot at h ⊢
    split
    · rename_i hc; rw [if_pos hc] at h; exact h
    · rename_i hc
      rw [if_neg hc] at h
      split
      · rename_i he; rw [if_pos he] at h; exact h
      · rename_i he; rw [if_neg he] at h; cases h
  | succ n ih =>
    cases m with
    | zero => omega
    | succ m =>
      unfold searchGitRoot at h ⊢
      split
      · rename_i hc; rw [if_pos hc] at h; exact h
      · rename_i hc
        rw [if_neg hc] at h
        split
        · rename_i he; rw [if_pos he] at h; exact h
        · rename_i he
          rw [if_neg he] at h
          exact ih (Dir cwd) h m (by omega)

/-- Two runs of `searchGitRoot` that return, return the same. -/
theorem searchGitRoot_det (fs : FS) (n m : Nat) (cwd : GoString) (r1 r2 : GoString × Bool)
    (h1 : searchGitRoot fs n cwd = .ok r1) (h2 : searchGitRoot fs m cwd = .ok r2) :
    r1 = r2 := by
  have a := searchGitRoot_mono fs n cwd r1 h1 (max n m) (le_max_left _ _)
  have b := searchGitRoot_mono fs m cwd r2 h2 (max n m) (le_max_right _ _)
  rw [a] at b
  injection b

theorem cwdToPathSegments_congr (env : Env) (fs : FS) (n m : Nat) (cwd : GoString)
    (h : searchGitRoot fs n cwd = searchGitRoot fs m cwd) :
    cwdToPathSegments env fs n cwd = cwdToPathSegments env fs m cwd := by
  unfold cwdToPathSegments
  rw [h]

/-- More fuel does not change a result of `cwdToPathSegments`. -/
theorem cwdToPathSegments_mono (env : Env) (fs : FS) (n m : Nat) (cwd : GoString)
    (segs : List pathSegment) (h : cwdToPathSegments env fs n cwd = .ok segs) (hm : n ≤ m) :
    cwdToPathSegments env fs m cwd = .ok segs := by
  obtain ⟨g, b, _, _, _, h1, -, -, -, -⟩ := cwdToPathSegments_ok h
  have h2 := searchGitRoot_mono fs n cwd (g, b) h1 m hm
  rw [← h, cwdToPathSegments_congr env fs m n cwd (by rw [h1, h2])]

/-- Two runs of `cwdToPathSegments` that return, return the same. -/
theorem cwdToPathSegments_det (env : Env) (fs : FS) (n m : Nat) (cwd : GoString)
    (s1 s2 : List pathSegment) (h1 : cwdToPathSegments env fs n cwd = .ok s1)
    (h2 : cwdToPathSegments env fs m cwd = .ok s2) : s1 = s2 := by
  have a := cwdToPathSegments_mono env fs n (max n m) cwd s1 h1 (le_max_left _ _)
  have b := cwdToPathSegments_mono env fs m (max n m) cwd s2 h2 (le_max_right _ _)
  rw [a] at b
  injection b

/-- With no `.git` in reach, the search from `.` never leaves `.`. -/
theorem searchGitRoot_dot_diverges (fuel : Nat) :
    searchGitRoot (filesOf []) fuel (str ".") = .error .outOfFuel := by
  induction fuel with
  | zero => rfl
  | succ n ih =>
    have hd : Dir (str ".") = str "." := by decide
    unfold searchGitRoot
    rw [if_neg (by decide), if_neg (by decide)]
    simp only []
    rw [hd]
    exact ih

/-- A candidate without the marker whose parent never returns, never returns. -/
theorem searchGitRoot_diverges_step (fs : FS) (c : GoString)
    (hg : ¬ (c = str "/" ∨ c = str "")) (hp : ¬ («exists» fs [c, str ".git"] = true))
    (h : ∀ n, searchGitRoot fs n (Dir c) = .error .outOfFuel) :
    ∀ n, searchGitRoot fs n c = .error .outOfFuel := by
  intro n
  cases n with
  | zero =>
    unfold searchGitRoot
    rw [if_neg hg, if_neg hp]
  | succ n =>
    unfold searchGitRoot
    rw [if_neg hg, if_neg hp]
    exact h n

/-- A run of `cwdToPathSegments` whose `searchGitRoot` runs out of fuel does so too. -/
theorem cwdToPathSegments_outOfFuel (env : Env) (fs : FS) (fuel : Nat) (cwd : GoString)
    (h : searchGitRoot fs fuel cwd = .error .outOfFuel) :
    cwdToPathSegments env fs fuel cwd = .error .outOfFuel := by
  unfold cwdToPathSegments
  rw [h]
  rfl

/-! ## The ascending chain of `searchGitRoot` -/

theorem isCandidate_iff (c : GoString) : isCandidate c = true ↔ ¬ (c = str "/" ∨ c = str "") := by
  simp [isCandidate]

theorem rooted_cases (c : GoString) (habs : c.head? = some slash) :
    ∃ rest, c = slash :: rest := by
  cases c with
  | nil => simp at habs
  | cons b rest => simp at habs; exact ⟨rest, by rw [habs]⟩

theorem iterate_step (c : GoString) (n : Nat) :
    List.iterate Dir c (n + 1) = c :: List.iterate Dir (Dir c) n := rfl

/-- Past `len(c)` entries the chain of an absolute path does not grow. -/
theorem chain_stable (k : Nat) (c : GoString) (habs : c.head? = some slash)
    (hk : c.length ≤ k) :
    (List.iterate Dir c (k + 1)).takeWhile isCandidate =
      (List.iterate Dir c k).takeWhile isCandidate := by
  induction k generalizing c with
  | zero =>
    obtain ⟨rest, rfl⟩ := rooted_cases c habs
    simp at hk
  | succ k ih =>
    obtain ⟨rest, rfl⟩ := rooted_cases c habs
    rw [iterate_step (slash :: rest) (k + 1), iterate_step (slash :: rest) k,
      List.takeWhile_cons, List.takeWhile_cons]
    by_cases hc : isCandidate (slash :: rest) = true
    · rw [if_pos hc, if_pos hc]
      have hrest : rest ≠ [] := by
        intro h; subst h
        have : isCandidate [slash] = false := by decide
        rw [this] at hc; cases hc
      have hlt := length_Dir_lt rest hrest
      rw [ih (Dir (slash :: rest)) (head_Dir_rooted rest) (by omega)]
    · rw [if_neg hc, if_neg hc]

theorem chain_stable_le (k : Nat) (c : GoString) (habs : c.head? = some slash)
    (hk : c.length ≤ k) :
    (List.iterate Dir c k).takeWhile isCandidate = ancestorChain c := by
  unfold ancestorChain
  induction k with
  | zero =>
    obtain ⟨rest, rfl⟩ := rooted_cases c habs
    simp at hk
  | succ k ih =>
    by_cases h : c.length ≤ k
    · rw [chain_stable k c habs h, ih h]
    · have : c.length = k + 1 := by omega
      rw [this]

/-- From an absolute starting directory, with fuel for `len(cwd) - 1` ascents,
`searchGitRoot` returns the nearest candidate of the chain that holds the marker. -/
theorem searchGitRoot_eq_nearest (fs : FS) (n : Nat) (c : GoString)
    (habs : c.head? = some slash) (hn : c.length ≤ n + 1) :
    searchGitRoot fs n c =
      .ok (match ((List.iterate Dir c (n + 1)).takeWhile isCandidate).find?
              (fun c => «exists» fs [c, str ".git"]) with
           | some r => (r, true)
           | none => (str "", false)) := by
  induction n generalizing c with
  | zero =>
    obtain ⟨rest, rfl⟩ := rooted_cases c habs
    have : rest = [] := by
      cases rest with
      | nil => rfl
      | cons x xs => simp at hn
    subst this
    rfl
  | succ n ih =>
    obtain ⟨rest, rfl⟩ := rooted_cases c habs
    rw [iterate_step (slash :: rest) (n + 1), List.takeWhile_cons]
    unfold searchGitRoot
    by_cases hc : isCandidate (slash :: rest) = true
    · have hc2 := (isCandidate_iff _).1 hc
      rw [if_pos hc, if_neg hc2, List.find?_cons]
      by_cases he : «exists» fs [slash :: rest, str ".git"] = true
      · rw [if_pos he]
        simp [he]
      · rw [if_neg he]
        have hrest : rest ≠ [] := by
          intro h; subst h
          have : isCandidate [slash] = false := by decide
          rw [this] at hc; cases hc
        have hlt := length_Dir_lt rest hrest
        simp only [he]
        exact ih (Dir (slash :: rest)) (head_Dir_rooted rest) (by omega)
    · have hc2 : slash :: rest = str "/" ∨ slash :: rest = str "" := by
        by_contra h
        exact hc ((isCandidate_iff _).2 h)
      rw [if_neg hc, if_pos hc2]
      rfl

theorem searchGitRoot_eq_nearestRoot (fs : FS) (n : Nat) (c : GoString)
    (habs : c.head? = some slash) (hn : c.length ≤ n + 1) :
    searchGitRoot fs n c = .ok (nearestRoot fs c) := by
  rw [searchGitRoot_eq_nearest fs n c habs hn, chain_stable_le (n + 1) c habs hn]
  rfl

theorem nearestRoot_none_iff (fs : FS) (c : GoString) :
    nearestRoot fs c = (str "", false) ↔
      ∀ x ∈ ancestorChain c, «exists» fs [x, str ".git"] = false := by
  unfold nearestRoot
  cases h : (ancestorChain c).find? (fun c => «exists» fs [c, str ".git"]) with
  | none =>
    simp only [true_iff]
    intro x hx
    have := List.find?_eq_none.1 h x hx
    simpa using this
  | some r =>
    constructor
    · intro h2; simp at h2
    · intro h2
      have hm := List.mem_of_find?_eq_some h
      have hp := List.find?_some h
      rw [h2 r hm] at hp
      cases hp

theorem mem_ancestorChain_candidate (c x : GoString) (hx : x ∈ ancestorChain c) :
    x ≠ str "/" ∧ x ≠ str "" := by
  unfold ancestorChain at hx
  have := List.mem_takeWhile_imp hx
  have h2 := (isCandidate_iff x).1 this
  exact ⟨fun h => h2 (Or.inl h), fun h => h2 (Or.inr h)⟩

/-! ## The branches of `cwdToPathSegments` -/

/-- The workspace branch. -/
theorem branch_gopath (env : Env) (fs : FS) (g cwd : GoString)
    (hws : (LookupEnv env (str "GOPATH")).1 ≠ str "" ∧
      HasPrefix cwd ((LookupEnv env (str "GOPATH")).1 ++ str "/src") = true) :
    cwdToPathSegments_branch env fs g cwd =
      .ok { pathSegments := [{ path := str "🐭", home := true }],
            cwd := cwd.drop ((LookupEnv env (str "GOPATH")).1 ++ str "/src").length,
            skip := 2, joined := true } := by
  unfold cwdToPathSegments_branch
  simp only []
  rw [if_pos hws, sliceFrom_ok _ _ (by omega) (by exact_mod_cast HasPrefix_length hws.2)]
  rfl

/-- The version-control branch. -/
theorem branch_git (env : Env) (fs : FS) (g cwd : GoString)
    (hws : ¬ ((LookupEnv env (str "GOPATH")).1 ≠ str "" ∧
      HasPrefix cwd ((LookupEnv env (str "GOPATH")).1 ++ str "/src") = true))
    (hg : g ≠ str "") (hlen : (Dir g).length ≤ cwd.length) :
    cwdToPathSegments_branch env fs g cwd =
      .ok { pathSegments := [{ path := icon fs g, home := true }],
            cwd := cwd.drop (Dir g).length, skip := 0, joined := true } := by
  unfold cwdToPathSegments_branch
  simp only []
  rw [if_neg hws, if_pos hg, sliceFrom_ok _ _ (by omega) (by exact_mod_cast hlen)]
  rfl

/-- The home branch. -/
theorem branch_home (env : Env) (fs : FS) (g cwd : GoString)
    (hws : ¬ ((LookupEnv env (str "GOPATH")).1 ≠ str "" ∧
      HasPrefix cwd ((LookupEnv env (str "GOPATH")).1 ++ str "/src") = true))
    (hg : g = str "") (hhome : HasPrefix cwd (LookupEnv env (str "HOME")).1 = true) :
    cwdToPathSegments_branch env fs g cwd =
      .ok { pathSegments := [{ path := str "~", home := true }],
            cwd := cwd.drop (LookupEnv env (str "HOME")).1.length,
            skip := 0, joined := false } := by
  unfold cwdToPathSegments_branch
  simp only []
  rw [if_neg hws, if_neg (by simp [hg]), if_pos hhome,
    sliceFrom_ok _ _ (by omega) (by exact_mod_cast HasPrefix_length hhome)]
  rfl

/-- The names are appended to the segments of the `if` chain. -/
theorem emit_prefix (ps : List pathSegment) (names : List GoString) (joined : Bool) :
    ∃ extra, cwdToPathSegments_emit ps names joined = ps ++ extra := by
  unfold cwdToPathSegments_emit
  split
  · split
    · exact ⟨_, rfl⟩
    · exact ⟨_, rfl⟩
  · exact ⟨[], by simp⟩

/-- The `if` chain of the labels is the first match of the priority table. -/
theorem icon_eq_firstMarkerLabel (fs : FS) (g : GoString) :
    icon fs g = firstMarkerLabel fs g := by
  unfold icon firstMarkerLabel markerTable
  simp only [List.find?_cons]
  by_cases h1 : «exists» fs [g, str "package.json"] = true
  · simp [h1]
  · by_cases h2 : «exists» fs [g, str "composer.json"] = true
    · simp [h1, h2]
    · by_cases h3 : «exists» fs [g, str "Gemfile"] = true
      · simp [h1, h2, h3]
      · by_cases h4 : «exists» fs [g, str "cpanfile"] = true
        · simp [h1, h2, h3, h4]
        · by_cases h5 : «exists» fs [g, str "__pycache__"] = true
          · simp [h1, h2, h3, h4, h5]
          · simp [h1, h2, h3, h4, h5]

/-! ## Paths given by their components -/

theorem Join_append (l1 l2 : List GoString) (sepStr : GoString) (h1 : l1 ≠ [])
    (h2 : l2 ≠ []) : Join (l1 ++ l2) sepStr = Join l1 sepStr ++ sepStr ++ Join l2 sepStr := by
  induction l1 with
  | nil => exact absurd rfl h1
  | cons a rest ih =>
    cases rest with
    | nil =>
      rw [List.singleton_append, Join_cons_of_ne_nil _ _ _ h2]
      simp [Join]
    | cons b rest2 =>
      rw [List.cons_append, Join_cons_of_ne_nil _ _ _ (by simp), ih (by simp), Join_cons_cons]
      simp

theorem Join_ne_nil (comps : List GoString) (hne : comps ≠ [])
    (h : ∀ c ∈ comps, isName c) : Join comps [slash] ≠ [] := by
  cases comps with
  | nil => exact absurd rfl hne
  | cons a rest =>
    have ha := (h a (by simp)).1
    cases rest with
    | nil => simpa [Join] using ha
    | cons b rest2 => rw [Join_cons_cons]; simp [ha]

/-- Joined names start with a byte other than the separator. -/
theorem Join_head (comps : List GoString) (hne : comps ≠ [])
    (h : ∀ c ∈ comps, isName c) : ∃ b t, Join comps [slash] = b :: t ∧ b ≠ slash := by
  cases comps with
  | nil => exact absurd rfl hne
  | cons a rest =>
    obtain ⟨ha1, ha2⟩ := h a (by simp)
    cases a with
    | nil => exact absurd rfl ha1
    | cons x xs =>
      have hx : x ≠ slash := fun hx => ha2 (by simp [hx])
      cases rest with
      | nil => exact ⟨x, xs, by simp [Join], hx⟩
      | cons b rest2 =>
        exact ⟨x, xs ++ [slash] ++ Join (b :: rest2) [slash], by rw [Join_cons_cons]; simp, hx⟩

/-- Joined names end with a byte other than the separator. -/
theorem Join_getLast (comps : List GoString) (hne : comps ≠ [])
    (h : ∀ c ∈ comps, isName c) (hj : Join comps [slash] ≠ []) :
    (Join comps [slash]).getLast hj ≠ slash := by
  induction comps with
  | nil => exact absurd rfl hne
  | cons a rest ih =>
    obtain ⟨ha1, ha2⟩ := h a (by simp)
    cases rest with
    | nil =>
      simp only [Join] at hj ⊢
      intro hl
      exact ha2 (hl ▸ List.getLast_mem hj)
    | cons b rest2 =>
      have hrest : ∀ c ∈ b :: rest2, isName c := fun c hc => h c (List.mem_cons_of_mem _ hc)
      have hj2 := Join_ne_nil (b :: rest2) (by simp) hrest
      have key : (a ++ [slash] ++ Join (b :: rest2) [slash]).getLast
          (by simp) = (Join (b :: rest2) [slash]).getLast hj2 :=
        List.getLast_append_of_ne_nil hj2
      have e : Join (a :: b :: rest2) [slash] = a ++ [slash] ++ Join (b :: rest2) [slash] :=
        Join_cons_cons _ _ _ _
      have : (Join (a :: b :: rest2) [slash]).getLast hj
          = (Join (b :: rest2) [slash]).getLast hj2 := by
        rw [← key]
        congr 1
      rw [this]
      exact ih (by simp) hrest hj2

/-- Joined names are not changed by trimming the separator. -/
theorem Trim_Join (comps : List GoString) (hne : comps ≠ [])
    (h : ∀ c ∈ comps, isName c) : Trim (Join comps [slash]) slash = Join comps [slash] := by
  obtain ⟨b, t, hbt, hb⟩ := Join_head comps hne h
  unfold Trim
  have hd : (Join comps [slash]).dropWhile (fun x => x == slash) = Join comps [slash] := by
    rw [hbt, List.dropWhile_cons_of_neg (by simpa using hb)]
  rw [hd, List.rdropWhile_eq_self_iff]
  intro hl
  have := Join_getLast comps hne h hl
  simpa using this

theorem Trim_cons_slash (s : GoString) : Trim (slash :: s) slash = Trim s slash := by
  unfold Trim
  rw [List.dropWhile_cons_of_pos (by simp)]

theorem Trim_nil : Trim [] slash = [] := by decide

/-- The names of `/c1/.../cn` after lines 81-85 are `c1, ..., cn`. -/
theorem splitNames_slash_Join (comps : List GoString) (h : ∀ c ∈ comps, isName c) :
    splitNames (slash :: Join comps [slash]) = comps := by
  unfold splitNames
  rw [Trim_cons_slash]
  cases comps with
  | nil => simp [Join, Trim_nil, Split]
  | cons a rest =>
    rw [Trim_Join _ (by simp) h, Split_Join slash _ (by simp) (fun x hx => (h x hx).2)]
    simp [(h a (by simp)).1]

/-- The names of `c1/.../cn` after lines 81-85 are `c1, ..., cn`. -/
theorem splitNames_Join (comps : List GoString) (h : ∀ c ∈ comps, isName c) :
    splitNames (Join comps [slash]) = comps := by
  unfold splitNames
  cases comps with
  | nil => simp [Join, Trim_nil, Split]
  | cons a rest =>
    rw [Trim_Join _ (by simp) h, Split_Join slash _ (by simp) (fun x hx => (h x hx).2)]
    simp [(h a (by simp)).1]

/-- In the workspace branch the result does not depend on what `searchGitRoot` returned. -/
theorem cwdToPathSegments_workspace (env : Env) (fs : FS) (fuel : Nat) (cwd : GoString)
    (r : GoString × Bool) (hs : searchGitRoot fs fuel cwd = .ok r)
    (hws : (LookupEnv env (str "GOPATH")).1 ≠ str "" ∧
      HasPrefix cwd ((LookupEnv env (str "GOPATH")).1 ++ str "/src") = true) :
    cwdToPathSegments env fs fuel cwd =
      .ok (cwdToPathSegments_emit [{ path := str "🐭", home := true }]
        (skipNames (splitNames
          (cwd.drop ((LookupEnv env (str "GOPATH")).1 ++ str "/src").length)) 2) true) := by
  obtain ⟨g, b⟩ := r
  obtain ⟨st, hst, hrun⟩ := cwdToPathSegments_returns env fs fuel cwd g b hs
  rw [branch_gopath env fs g cwd hws] at hst
  injection hst with hst
  subst hst
  exact hrun

/-! ## `filepath.Dir` on a clean absolute path -/

theorem rdropWhile_append_all {α : Type} (p : α → Bool) (l m : List α)
    (h : ∀ x ∈ m, p x = true) : (l ++ m).rdropWhile p = l.rdropWhile p := by
  induction m using List.reverseRecOn with
  | nil => simp
  | append_singleton m x ih =>
    rw [← List.append_assoc, List.rdropWhile_concat_pos _ _ _ (h x (by simp))]
    exact ih (fun y hy => h y (by simp [hy]))

/-- Clean names are pushed on the element stack one by one. -/
theorem foldl_cleanStep_clean (rooted : Bool) (names stack : List GoString)
    (h : ∀ c ∈ names, isCleanName c) :
    names.foldl (cleanStep rooted) stack = names.reverse ++ stack := by
  induction names generalizing stack with
  | nil => rfl
  | cons a rest ih =>
    obtain ⟨⟨h1, -⟩, h3, h4⟩ := h a (by simp)
    have hstep : cleanStep rooted stack a = a :: stack := by
      unfold cleanStep
      rw [if_neg (by simp [h1, h3]), if_neg h4]
    rw [List.foldl_cons, hstep, ih _ (fun c hc => h c (List.mem_cons_of_mem _ hc))]
    simp

/-- A clean absolute path with a trailing separator is cleaned to the path without it. -/
theorem Clean_absPath_trailing (names : List GoString) (hne : names ≠ [])
    (h : ∀ c ∈ names, isCleanName c) :
    Clean (slash :: (Join names [slash] ++ [slash])) = absPath names := by
  have hsplit : Split slash (Join names [slash] ++ [slash]) = names ++ [[]] := by
    rw [Split_append_sep_eq, Split_Join slash names hne (fun x hx => (h x hx).1.2)]
    rfl
  unfold Clean
  simp only [List.head?_cons, decide_True, if_true, Split_cons_sep, List.foldl_cons]
  have h0 : cleanStep true [] [] = [] := by simp [cleanStep]
  rw [h0, hsplit, List.foldl_append, foldl_cleanStep_clean true names [] h]
  have h1 : cleanStep true (names.reverse ++ []) [] = names.reverse := by
    simp [cleanStep]
  simp only [List.foldl_cons, List.foldl_nil, h1, List.reverse_reverse]
  rfl

/-- `filepath.Dir` of the clean absolute path `/c1/.../cn` is `/c1/.../c(n-1)`. -/
theorem Dir_absPath (comps : List GoString) (h : ∀ c ∈ comps, isCleanName c) :
    Dir (absPath comps) = absPath comps.dropLast := by
  induction comps using List.reverseRecOn with
  | nil => decide
  | append_singleton init last _ =>
    rw [List.dropLast_concat]
    have hlast : ∀ x ∈ last, (fun b => b != slash) x = true := by
      intro x hx
      have := (h last (by simp)).1.2
      simp only [bne_iff_ne, ne_eq]
      intro hxs
      exact this (hxs ▸ hx)
    unfold Dir
    by_cases hinit : init = []
    · subst hinit
      have e : absPath ([] ++ [last]) = [slash] ++ last := by simp [absPath, Join]
      rw [e, rdropWhile_append_all _ _ _ hlast]
      decide
    · have e : absPath (init ++ [last]) = (slash :: Join init [slash]) ++ [slash] ++ last := by
        unfold absPath
        rw [Join_append _ _ _ hinit (by simp)]
        simp [Join]
      rw [e, rdropWhile_append_all _ _ _ hlast,
        List.rdropWhile_concat_neg _ _ _ (by simp)]
      exact Clean_absPath_trailing init hinit (fun c hc => h c (by simp [hc]))

theorem absPath_nil : absPath [] = str "/" := by decide

/-- Every entry of the ascending sequence of `/c1/.../cn` is `/c1/.../cj` for some `j`. -/
theorem mem_iterate_absPath (m : Nat) (comps : List GoString)
    (h : ∀ c ∈ comps, isCleanName c) (x : GoString)
    (hx : x ∈ List.iterate Dir (absPath comps) m) :
    ∃ j, j ≤ comps.length ∧ x = absPath (comps.take j) := by
  induction m generalizing comps with
  | zero => simp [List.iterate] at hx
  | succ m ih =>
    rw [iterate_step] at hx
    rcases List.mem_cons.1 hx with rfl | hx
    · exact ⟨comps.length, le_refl _, by rw [List.take_length]⟩
    · rw [Dir_absPath comps h] at hx
      obtain ⟨j, hj, rfl⟩ := ih comps.dropLast
        (fun c hc => h c (List.mem_of_mem_dropLast hc)) hx
      rw [List.length_dropLast] at hj
      refine ⟨j, by omega, ?_⟩
      rw [List.dropLast_eq_take, List.take_take, min_eq_left hj]

/-- Every candidate of the chain of `/c1/.../cn` is `/c1/.../cj` for some `1 ≤ j ≤ n`. -/
theorem mem_ancestorChain_absPath (comps : List GoString)
    (h : ∀ c ∈ comps, isCleanName c) (x : GoString) (hx : x ∈ ancestorChain (absPath comps)) :
    ∃ j, 1 ≤ j ∧ j ≤ comps.length ∧ x = absPath (comps.take j) := by
  have hcand := (mem_ancestorChain_candidate _ x hx).1
  unfold ancestorChain at hx
  obtain ⟨j, hj, rfl⟩ := mem_iterate_absPath _ comps h x
    ((List.takeWhile_sublist _).subset hx)
  refine ⟨j, ?_, hj, rfl⟩
  by_contra h0
  have : j = 0 := by omega
  subst this
  rw [List.take_zero, absPath_nil] at hcand
  exact hcand rfl

/-- The names left of `/c1/.../cn` once the prefix `/c1/.../cj` (`j < n`) is cut off. -/
theorem splitNames_drop_absPath (comps : List GoString) (h : ∀ c ∈ comps, isName c)
    (j : Nat) (hj : j < comps.length) :
    splitNames ((absPath comps).drop (absPath (comps.take j)).length) = comps.drop j := by
  have hdrop : ∀ c ∈ comps.drop j, isName c := fun c hc => h c (List.mem_of_mem_drop hc)
  cases j with
  | zero =>
    have e : (absPath (comps.take 0)).length = 1 := by simp [absPath, Join]
    rw [e]
    unfold absPath
    rw [List.drop_one, List.tail_cons, List.drop_zero]
    exact splitNames_Join comps h
  | succ j =>
    have ht : comps.take (j + 1) ≠ [] := by
      intro hnil
      have h1 : (comps.take (j + 1)).length = 0 := by rw [hnil]; rfl
      rw [List.length_take] at h1
      omega
    have hd : comps.drop (j + 1) ≠ [] := by
      intro hnil
      have h1 : (comps.drop (j + 1)).length = 0 := by rw [hnil]; rfl
      rw [List.length_drop] at h1
      omega
    have e : absPath comps =
        absPath (comps.take (j + 1)) ++ (slash :: Join (comps.drop (j + 1)) [slash]) := by
      unfold absPath
      conv_lhs => rw [← List.take_append_drop (j + 1) comps]
      rw [Join_append _ _ _ ht hd]
      simp
    rw [e, List.drop_left]
    exact splitNames_slash_Join _ hdrop

theorem skipNames_zero (names : List GoString) : skipNames names 0 = names := by
  unfold skipNames
  by_cases h : (0 : Int) < (names.length : Int)
  · rw [if_pos h]; rfl
  · rw [if_neg h]
    have : names.length = 0 := by omega
    rw [if_neg (by omega)]

theorem nearestRoot_mem (fs : FS) (cwd R : GoString) (h : nearestRoot fs cwd = (R, true)) :
    R ∈ ancestorChain cwd := by
  unfold nearestRoot at h
  cases hf : (ancestorChain cwd).find? (fun c => «exists» fs [c, str ".git"]) with
  | none => rw [hf] at h; simp at h
  | some c =>
    rw [hf] at h
    simp only [Prod.mk.injEq, and_true] at h
    subst h
    exact List.mem_of_find?_eq_some hf

/-! ## The rendering loop of `segmentCwd` -/

/-- The entry of a segment reads only the configuration of the prompt state. -/
theorem segmentCwd_entry_congr (p q : powerline) (len idx : Nat) (s : pathSegment)
    (h1 : q.args = p.args) (h2 : q.theme = p.theme) (h3 : q.shellInfo = p.shellInfo)
    (h4 : q.SeparatorThin = p.SeparatorThin) :
    segmentCwd_entry q len idx s = segmentCwd_entry p len idx s := by
  unfold segmentCwd_entry getColor escapeVariables maybeShortenName
  simp only [h1, h2, h3, h4]

theorem foldl_render (p : powerline) (len : Nat) (l : List (Nat × pathSegment))
    (q : powerline) (h1 : q.args = p.args) (h2 : q.theme = p.theme)
    (h3 : q.shellInfo = p.shellInfo) (h4 : q.SeparatorThin = p.SeparatorThin) :
    l.foldl (fun r (x : Nat × pathSegment) => segmentCwd_render r len x.1 x.2) q =
      { q with Segments := q.Segments ++ l.map (fun x => segmentCwd_entry p len x.1 x.2) } := by
  induction l generalizing q with
  | nil => simp
  | cons x xs ih =>
    rw [List.foldl_cons]
    have hstep : segmentCwd_render q len x.1 x.2 =
        { q with Segments := q.Segments ++ [segmentCwd_entry p len x.1 x.2] } := by
      unfold segmentCwd_render appendSegment
      rw [segmentCwd_entry_congr p q len x.1 x.2 h1 h2 h3 h4]
    rw [hstep, ih { q with Segments := q.Segments ++ [segmentCwd_entry p len x.1 x.2] }
      h1 h2 h3 h4]
    simp

/-- The rendering loop appends one entry per segment, in order, and changes nothing else. -/
theorem segmentCwd_loop_eq (p q : powerline) (ps : List pathSegment)
    (h1 : q.args = p.args) (h2 : q.theme = p.theme) (h3 : q.shellInfo = p.shellInfo)
    (h4 : q.SeparatorThin = p.SeparatorThin) :
    segmentCwd_loop q ps = { q with Segments := q.Segments ++ renderedEntries p ps } := by
  unfold segmentCwd_loop renderedEntries
  exact foldl_render p ps.length _ q h1 h2 h3 h4

/-- The default mode is the rendering loop on the result of the depth limit. -/
theorem segmentCwd_default_of_limit (p q : powerline) (segs ps : List pathSegment)
    (h : segmentCwd_limit p segs = .ok (q, ps)) :
    segmentCwd_default p segs = .ok (segmentCwd_loop q ps) := by
  unfold segmentCwd_default
  rw [h]
  rfl

/-- The depth limit with `maxDepth ≤ 0`: the advisory, and the sequence as it is. -/
theorem segmentCwd_limit_nonpos (p : powerline) (segs : List pathSegment)
    (h : p.args.CwdMaxDepth ≤ 0) :
    segmentCwd_limit p segs = .ok (warn p depthAdvisory, segs) := by
  unfold segmentCwd_limit
  simp only []
  rw [if_pos h]
  rfl

/-- The depth limit with a sequence of at most `maxDepth` segments: nothing changes. -/
theorem segmentCwd_limit_short (p : powerline) (segs : List pathSegment)
    (h0 : 0 < p.args.CwdMaxDepth) (h : (segs.length : Int) ≤ p.args.CwdMaxDepth) :
    segmentCwd_limit p segs = .ok (p, segs) := by
  unfold segmentCwd_limit
  simp only []
  rw [if_neg (by omega), if_neg (by omega)]
  rfl

/-- The depth limit with a longer sequence: the truncation. -/
theorem segmentCwd_limit_long (p : powerline) (segs : List pathSegment)
    (h0 : 0 < p.args.CwdMaxDepth) (h : p.args.CwdMaxDepth < (segs.length : Int)) :
    segmentCwd_limit p segs =
      .ok (p, segs.take (min 2 (p.args.CwdMaxDepth - 1)).toNat ++ [ellipsisSegment] ++
              segs.drop (segs.length + (min 2 (p.args.CwdMaxDepth - 1)).toNat
                          - p.args.CwdMaxDepth.toNat)) := by
  unfold segmentCwd_limit
  simp only []
  rw [if_neg (by omega), if_pos (by omega), segmentCwd_truncate_eq segs _ h0 h]
  rfl

/-- The depth limit always returns; it keeps the configuration and the sink, and the last
segment of a non-empty sequence. -/
theorem segmentCwd_limit_total (p : powerline) (segs : List pathSegment) :
    ∃ q ps, segmentCwd_limit p segs = .ok (q, ps) ∧
      q.args = p.args ∧ q.theme = p.theme ∧ q.shellInfo = p.shellInfo ∧
      q.SeparatorThin = p.SeparatorThin ∧ q.Segments = p.Segments ∧
      ps.getLast? = segs.getLast? := by
  by_cases h0 : p.args.CwdMaxDepth ≤ 0
  · exact ⟨_, _, segmentCwd_limit_nonpos p segs h0, rfl, rfl, rfl, rfl, rfl, rfl⟩
  · by_cases h : (segs.length : Int) ≤ p.args.CwdMaxDepth
    · exact ⟨_, _, segmentCwd_limit_short p segs (by omega) h, rfl, rfl, rfl, rfl, rfl, rfl⟩
    · refine ⟨_, _, segmentCwd_limit_long p segs (by omega) (by omega),
        rfl, rfl, rfl, rfl, rfl, ?_⟩
      have hd : segs.drop (segs.length + (min 2 (p.args.CwdMaxDepth - 1)).toNat
                          - p.args.CwdMaxDepth.toNat) ≠ [] := by
        intro hnil
        have h1 : (segs.drop (segs.length + (min 2 (p.args.CwdMaxDepth - 1)).toNat
                          - p.args.CwdMaxDepth.toNat)).length = 0 := by rw [hnil]; rfl
        rw [List.length_drop] at h1
        omega
      rw [List.getLast?_append_of_ne_nil _ hd, List.getLast?_drop]
      rw [if_neg (by omega)]

/-! ## The entries of the rendering loop -/

theorem isLastDir_iff (len idx : Nat) :
    (((idx : Int) == (len : Int) - 1) = true) ↔ idx + 1 = len := by
  rw [beq_iff_eq]
  omega

/-- The origin tag of an entry: `cwd` for the last segment, `cwd-path` for the others. -/
theorem segmentCwd_entry_origin (p : powerline) (len idx : Nat) (s : pathSegment) :
    (segmentCwd_entry p len idx s).1 = if idx + 1 = len then str "cwd" else str "cwd-path" := by
  unfold segmentCwd_entry
  by_cases h : idx + 1 = len
  · have hb := (isLastDir_iff len idx).2 h
    simp only [hb, if_pos h]
    simp
  · have hb : ((idx : Int) == (len : Int) - 1) = false := by
      rw [← Bool.not_eq_true]; exact fun hb => h ((isLastDir_iff len idx).1 hb)
    simp only [hb, if_neg h]
    simp

/-- The content of an entry: the shortened, escaped text of the segment. -/
theorem segmentCwd_entry_content (p : powerline) (len idx : Nat) (s : pathSegment) :
    (segmentCwd_entry p len idx s).2.content =
      escapeVariables p (maybeShortenName p s.path) := by
  unfold segmentCwd_entry
  simp only []
  split <;> rfl

/-- The colours of an entry are those of `getColor`. -/
theorem segmentCwd_entry_colour (p : powerline) (len idx : Nat) (s : pathSegment) :
    ((segmentCwd_entry p len idx s).2.foreground, (segmentCwd_entry p len idx s).2.background) =
      getColor p s ((idx : Int) == (len : Int) - 1) := by
  unfold segmentCwd_entry
  simp only []
  split <;> rfl

/-- The separator of an entry: attached unless the segment is the last one or a Home
segment under the special home display. -/
theorem segmentCwd_entry_separator (p : powerline) (len idx : Nat) (s : pathSegment) :
    ((¬ (s.home = true ∧ p.theme.HomeSpecialDisplay = true) ∧ idx + 1 ≠ len) →
        (segmentCwd_entry p len idx s).2.separator = p.SeparatorThin ∧
        (segmentCwd_entry p len idx s).2.separatorForeground = p.theme.SeparatorFg) ∧
      (¬ (¬ (s.home = true ∧ p.theme.HomeSpecialDisplay = true) ∧ idx + 1 ≠ len) →
        (segmentCwd_entry p len idx s).2.separator = str "" ∧
        (segmentCwd_entry p len idx s).2.separatorForeground = 0) := by
  have hl := isLastDir_iff len idx
  unfold segmentCwd_entry
  simp only []
  constructor
  · intro ⟨h1, h2⟩
    have hc : (!(s.home && p.theme.HomeSpecialDisplay) && !((idx : Int) == (len : Int) - 1))
        = true := by
      have h3 : ((idx : Int) == (len : Int) - 1) = false := by
        rw [← Bool.not_eq_true]; exact fun hb => h2 (hl.1 hb)
      have h4 : (s.home && p.theme.HomeSpecialDisplay) = false := by
        rw [← Bool.not_eq_true]
        intro hb
        exact h1 (by simpa using hb)
      rw [h3, h4]; rfl
    rw [if_pos hc]
    exact ⟨rfl, rfl⟩
  · intro h
    have hc : ¬ ((!(s.home && p.theme.HomeSpecialDisplay) &&
        !((idx : Int) == (len : Int) - 1)) = true) := by
      intro hb
      apply h
      simp only [Bool.and_eq_true, Bool.not_eq_true', Bool.and_eq_false_iff] at hb
      refine ⟨?_, ?_⟩
      · intro ⟨a, b⟩
        rcases hb.1 with c | c
        · rw [a] at c; cases c
        · rw [b] at c; cases c
      · intro hlast
        have := hl.2 hlast
        rw [this] at hb
        exact absurd hb.2 (by simp)
    rw [if_neg hc]
    exact ⟨rfl, rfl⟩

/-- The entry rendered at index `i`. -/
theorem renderedEntries_getElem? (p : powerline) (ps : List pathSegment) (i : Nat)
    (s : pathSegment) (h : ps[i]? = some s) :
    (renderedEntries p ps)[i]? = some (segmentCwd_entry p ps.length i s) := by
  unfold renderedEntries
  rw [List.getElem?_map, List.getElem?_enum, h]
  rfl

theorem renderedEntries_length (p : powerline) (ps : List pathSegment) :
    (renderedEntries p ps).length = ps.length := by
  unfold renderedEntries
  simp

/-- The entry rendered last. -/
theorem renderedEntries_getLast? (p : powerline) (ps : List pathSegment) (last : pathSegment)
    (h : ps.getLast? = some last) :
    (renderedEntries p ps).getLast? = some (segmentCwd_entry p ps.length (ps.length - 1) last) := by
  rw [List.getLast?_eq_getElem?] at h ⊢
  rw [renderedEntries_length]
  exact renderedEntries_getElem? p ps _ last h

/-- The contents of the rendered entries, in order. -/
theorem renderedEntries_content (p : powerline) (ps : List pathSegment) :
    (renderedEntries p ps).map (fun e => e.2.content) =
      ps.map (fun s => escapeVariables p (maybeShortenName p s.path)) := by
  unfold renderedEntries
  rw [List.map_map]
  have hf : ((fun e : GoString × segment => e.2.content) ∘
      fun x : Nat × pathSegment => segmentCwd_entry p ps.length x.1 x.2) =
      (fun s : pathSegment => escapeVariables p (maybeShortenName p s.path)) ∘ Prod.snd := by
    funext x
    exact segmentCwd_entry_content p ps.length x.1 x.2
  rw [hf, ← List.map_map, List.enum_map_snd]

/-- In a mode other than `plain` and `dironly`, `segmentCwd` is the default mode on the
sequence returned by `cwdToPathSegments`. -/
theorem segmentCwd_default_mode (env : Env) (fs : FS) (fuel : Nat) (p : powerline)
    (segs : List pathSegment) (h1 : p.args.CwdMode ≠ str "plain")
    (h2 : p.args.CwdMode ≠ str "dironly")
    (hrun : cwdToPathSegments env fs fuel
      (if p.cwd = str "" then (LookupEnv env (str "PWD")).1 else p.cwd) = .ok segs) :
    segmentCwd env fs fuel p = segmentCwd_default p segs := by
  unfold segmentCwd
  simp only []
  rw [if_neg h1, hrun]
  simp only [bind, Except.bind]
  rw [if_neg h2]

/-- The sink after the default mode: the entries of the sequence left by the depth limit. -/
theorem segmentCwd_default_segments (p q : powerline) (segs ps : List pathSegment)
    (h : segmentCwd_limit p segs = .ok (q, ps)) :
    ∃ r, segmentCwd_default p segs = .ok r ∧ r.Segments = p.Segments ++ renderedEntries p ps := by
  obtain ⟨q0, ps0, h0, a1, a2, a3, a4, a5, -⟩ := segmentCwd_limit_total p segs
  rw [h] at h0
  injection h0 with h0
  injection h0 with hq hps
  subst hq; subst hps
  refine ⟨_, segmentCwd_default_of_limit p q segs ps h, ?_⟩
  rw [segmentCwd_loop_eq p q ps a1 a2 a3 a4, ← a5]

/-- C1: in the default mode, for a sequence of length `L` and a depth limit `D` with
`0 < D < L`, the depth limit of `segmentCwd` yields the first `min(2, D-1)` segments,
then the ellipsis segment, then `segments[L + nBefore - D :]`; for `D = 1` this is the
ellipsis followed by the last segment. -/
theorem segmentCwd_truncation_shape (p : powerline) (segs : List pathSegment)
    (hD : 0 < p.args.CwdMaxDepth) (hL : p.args.CwdMaxDepth < (segs.length : Int)) :
    segmentCwd_limit p segs =
        .ok (p, segs.take (min 2 (p.args.CwdMaxDepth - 1)).toNat ++
                [{ path := str "…", ellipsis := true }] ++
                segs.drop (segs.length + (min 2 (p.args.CwdMaxDepth - 1)).toNat
                            - p.args.CwdMaxDepth.toNat)) ∧
      (p.args.CwdMaxDepth = 1 →
        ∃ last, segs.getLast? = some last ∧
          segmentCwd_limit p segs = .ok (p, [{ path := str "…", ellipsis := true }, last])) := by
  have hmain : segmentCwd_limit p segs =
        .ok (p, segs.take (min 2 (p.args.CwdMaxDepth - 1)).toNat ++
                [{ path := str "…", ellipsis := true }] ++
                segs.drop (segs.length + (min 2 (p.args.CwdMaxDepth - 1)).toNat
                            - p.args.CwdMaxDepth.toNat)) := by
    unfold segmentCwd_limit
    simp only []
    rw [if_neg (by omega), if_pos (by omega), segmentCwd_truncate_eq segs _ hD hL]
    rfl
  refine ⟨hmain, ?_⟩
  intro h1
  have hne : segs ≠ [] := by
    intro h; rw [h] at hL; simp at hL; omega
  refine ⟨segs.getLast hne, List.getLast?_eq_getLast _ hne, ?_⟩
  rw [hmain, h1]
  have hd : segs.drop (segs.length - 1) = [segs.getLast hne] := by
    exact drop_length_pred segs hne
  simp [hd]

/-- C1 at the end-to-end example: `["~","a","b","c","d","e"]` with `maxDepth = 3`
becomes `["~","a",ellipsis,"e"]`. -/
theorem segmentCwd_truncation_shape_witness :
    segmentCwd_limit (examplePowerline "fancy" 3) exampleSegments =
      .ok (examplePowerline "fancy" 3,
           [{ path := str "~", home := true }, { path := str "a" },
            { path := str "…", ellipsis := true }, { path := str "e" }]) :=
  (segmentCwd_truncation_shape (examplePowerline "fancy" 3) exampleSegments
    (by decide) (by decide)).1

/-- C2: a sequence returned by `cwdToPathSegments`, of length `L`, truncated in
`segmentCwd` under a depth limit `D` with `0 < D < L`, has length `D + 1` and exactly one
ellipsis segment, at index `nBefore = min(2, D-1)`. -/
theorem segmentCwd_truncated_length (env : Env) (fs : FS) (fuel : Nat) (cwd : GoString)
    (segs : List pathSegment) (p : powerline)
    (hrun : cwdToPathSegments env fs fuel cwd = .ok segs)
    (hD : 0 < p.args.CwdMaxDepth) (hL : p.args.CwdMaxDepth < (segs.length : Int)) :
    ∃ out, segmentCwd_limit p segs = .ok (p, out) ∧
      (out.length : Int) = p.args.CwdMaxDepth + 1 ∧
      out.countP (fun s => s.ellipsis) = 1 ∧
      ∀ i s, out[i]? = some s →
        (s.ellipsis = true ↔ i = (min 2 (p.args.CwdMaxDepth - 1)).toNat) := by
  have hno := cwdToPathSegments_no_ellipsis hrun
  have hlim : segmentCwd_limit p segs =
      .ok (p, segs.take (min 2 (p.args.CwdMaxDepth - 1)).toNat ++ [ellipsisSegment] ++
              segs.drop (segs.length + (min 2 (p.args.CwdMaxDepth - 1)).toNat
                          - p.args.CwdMaxDepth.toNat)) := by
    unfold segmentCwd_limit
    simp only []
    rw [if_neg (by omega), if_pos (by omega), segmentCwd_truncate_eq segs _ hD hL]
    rfl
  have hA : ∀ s ∈ segs.take (min 2 (p.args.CwdMaxDepth - 1)).toNat, s.ellipsis = false :=
    fun s hs => hno s (List.mem_of_mem_take hs)
  have hB : ∀ s ∈ segs.drop (segs.length + (min 2 (p.args.CwdMaxDepth - 1)).toNat
                          - p.args.CwdMaxDepth.toNat), s.ellipsis = false :=
    fun s hs => hno s (List.mem_of_mem_drop hs)
  have hlenA : (segs.take (min 2 (p.args.CwdMaxDepth - 1)).toNat).length
      = (min 2 (p.args.CwdMaxDepth - 1)).toNat := by
    rw [List.length_take]; omega
  refine ⟨_, hlim, ?_, ?_, ?_⟩
  · simp only [List.length_append, List.length_take, List.length_drop, List.length_singleton]
    omega
  · rw [List.countP_append, List.countP_append, countP_ellipsis_zero _ hA,
      countP_ellipsis_zero _ hB]
    rfl
  · intro i s hi
    have := ellipsis_index _ _ ellipsisSegment hA hB rfl i s hi
    rw [hlenA] at this
    exact this

/-- C2 at the end-to-end example: `/home/u/a/b/c/d/e` with `HOME=/home/u` and
`maxDepth = 3`. -/
theorem segmentCwd_truncated_length_witness :
    ∃ out, segmentCwd_limit (examplePowerline "fancy" 3) exampleSegments
        = .ok (examplePowerline "fancy" 3, out) ∧
      (out.length : Int) = 3 + 1 ∧
      out.countP (fun s => s.ellipsis) = 1 ∧
      ∀ i s, out[i]? = some s → (s.ellipsis = true ↔ i = 2) :=
  segmentCwd_truncated_length (exampleEnv "") (filesOf []) 20 (str "/home/u/a/b/c/d/e")
    exampleSegments (examplePowerline "fancy" 3) rfl (by decide) (by decide)

/-- C3, the code at a failing input: in the `dironly` mode `segmentCwd` returns with the
rendering sink as it was; for `/home/u/a/b/c/d/e` no segment is emitted, while the
untruncated sequence ends in `e`. -/
theorem segmentCwd_dironly_emits_nothing :
    cwdToPathSegments (exampleEnv "") (filesOf []) 20 (str "/home/u/a/b/c/d/e")
        = .ok exampleSegments ∧
      segmentCwd (exampleEnv "") (filesOf []) 20 (examplePowerline "dironly" 3)
        = .ok (examplePowerline "dironly" 3) ∧
      (examplePowerline "dironly" 3).Segments = [] :=
  ⟨rfl, rfl, rfl⟩

/-- C4, the code at a failing input: for the non-empty path `//` (not under `HOME`, no
`.git`) `cwdToPathSegments` returns the empty sequence, on which the slice of the `dironly`
mode (line 157) panics; and for the non-empty relative path `a` with no `.git` in reach it
does not return at all, whatever the fuel. -/
theorem cwdToPathSegments_empty_at_double_slash :
    str "//" ≠ [] ∧
      cwdToPathSegments (exampleEnv "") (filesOf []) 1 (str "//") = .ok [] ∧
      (∀ fuel segs, cwdToPathSegments (exampleEnv "") (filesOf []) fuel (str "//") = .ok segs →
        segs = []) ∧
      segmentCwd (exampleEnv "") (filesOf []) 1
          { examplePowerline "dironly" 3 with cwd := str "//" } = .error .panic ∧
      str "a" ≠ [] ∧
      (∀ fuel, cwdToPathSegments (exampleEnv "") (filesOf []) fuel (str "a")
        = .error .outOfFuel) := by
  refine ⟨by decide, rfl, ?_, rfl, by decide, ?_⟩
  · intro fuel segs h
    exact cwdToPathSegments_det _ _ fuel 1 _ segs [] h rfl
  · intro fuel
    exact cwdToPathSegments_outOfFuel _ _ fuel _
      (searchGitRoot_diverges_step (filesOf []) (str "a") (by decide) (by decide)
        (fun n => by
          have hd : Dir (str "a") = str "." := by decide
          rw [hd]; exact searchGitRoot_dot_diverges n) fuel)

/-- Where the result is not empty: for every absolute input path that is `/` or holds a byte
other than `/` (every absolute path but the runs of two or more `/`), every environment and
every file system, `cwdToPathSegments` returns, within `len(cwd) - 1` ascents of
`searchGitRoot`, a non-empty sequence. -/
theorem cwdToPathSegments_nonempty (env : Env) (fs : FS) (fuel : Nat) (cwd : GoString)
    (habs : cwd.head? = some slash)
    (hns : cwd = str "/" ∨ ∃ b ∈ cwd, b ≠ slash)
    (hfuel : cwd.length ≤ fuel + 1) :
    ∃ segs, cwdToPathSegments env fs fuel cwd = .ok segs ∧ segs ≠ [] := by
  obtain ⟨⟨g, b⟩, hs⟩ := searchGitRoot_terminates fs fuel cwd habs hfuel
  obtain ⟨st, hst, hrun⟩ := cwdToPathSegments_returns env fs fuel cwd g b hs
  refine ⟨_, hrun, ?_⟩
  apply emit_ne_nil
  rcases branch_cases hst with ⟨r, rfl⟩ | ⟨r, rfl⟩ | ⟨r, rfl⟩ | rfl | ⟨rfl, hne⟩
  · left; simp
  · left; simp
  · left; simp
  · left; simp
  · right
    have hb : ∃ b ∈ cwd, b ≠ slash := hns.resolve_left hne
    obtain ⟨n0, rest, hsp, hn0⟩ := Split_Trim_head cwd hb
    simp only [splitNames, hsp, if_neg hn0, skipNames]
    rw [if_pos (by simp)]
    simp

/-- The non-empty result at `/tmp/x` with `HOME=/home/u`. -/
theorem cwdToPathSegments_nonempty_witness :
    ∃ segs, cwdToPathSegments (exampleEnv "") (filesOf []) 10 (str "/tmp/x") = .ok segs ∧
      segs ≠ [] :=
  cwdToPathSegments_nonempty (exampleEnv "") (filesOf []) 10 (str "/tmp/x")
    (by decide) (Or.inr ⟨116, by decide, by decide⟩) (by decide)

/-- C5 as stated fails: with `HOME=/home/u` and the path `/home/u/a` below it, a `.git` at the
home directory itself, or above it at `/home`, is no closer to the path than the home
directory, yet the first segment is the version-control label `Git`, not `~`. -/
theorem cwdToPathSegments_home_counterexample :
    HasPrefix (str "/home/u/a") (str "/home/u") = true ∧
      «exists» (filesOf ["/home/u/.git"]) [str "/home/u/a", str ".git"] = false ∧
      cwdToPathSegments (exampleEnv "") (filesOf ["/home/u/.git"]) 10 (str "/home/u/a")
        = .ok [{ path := str "Git", home := true }, { path := str "u/a" }] ∧
      «exists» (filesOf ["/home/.git"]) [str "/home/u/a", str ".git"] = false ∧
      «exists» (filesOf ["/home/.git"]) [str "/home/u", str ".git"] = false ∧
      cwdToPathSegments (exampleEnv "") (filesOf ["/home/.git"]) 10 (str "/home/u/a")
        = .ok [{ path := str "Git", home := true }, { path := str "home/u/a" }] :=
  ⟨rfl, rfl, rfl, rfl, rfl, rfl⟩

/-- C5, amended: for every absolute path that has the home directory as a prefix (the home
directory or a descendant of it), not claimed by the workspace recognizer, and with no
candidate of its whole ascending chain holding `.git` (below, at or above the home
directory), the first segment returned by `cwdToPathSegments` is Home-kind with text `~`. -/
theorem cwdToPathSegments_home_first (env : Env) (fs : FS) (fuel : Nat) (cwd : GoString)
    (habs : cwd.head? = some slash) (hfuel : cwd.length ≤ fuel + 1)
    (hws : ¬ ((LookupEnv env (str "GOPATH")).1 ≠ str "" ∧
      HasPrefix cwd ((LookupEnv env (str "GOPATH")).1 ++ str "/src") = true))
    (hnone : ∀ c ∈ ancestorChain cwd, «exists» fs [c, str ".git"] = false)
    (hhome : HasPrefix cwd (LookupEnv env (str "HOME")).1 = true) :
    ∃ rest, cwdToPathSegments env fs fuel cwd =
      .ok ({ path := str "~", home := true } :: rest) := by
  have hs := searchGitRoot_eq_nearestRoot fs fuel cwd habs hfuel
  rw [(nearestRoot_none_iff fs cwd).2 hnone] at hs
  obtain ⟨st, hst, hrun⟩ := cwdToPathSegments_returns env fs fuel cwd _ _ hs
  rw [branch_home env fs _ cwd hws rfl hhome] at hst
  injection hst with hst
  subst hst
  obtain ⟨extra, he⟩ := emit_prefix [{ path := str "~", home := true }]
    (skipNames (splitNames (cwd.drop (LookupEnv env (str "HOME")).1.length)) 0) false
  refine ⟨extra, ?_⟩
  rw [hrun]
  simp only [] at he ⊢
  rw [he]
  rfl

/-- C5, amended, at `/home/u/a/b/c/d/e` with `HOME=/home/u` and no `.git` anywhere. -/
theorem cwdToPathSegments_home_first_witness :
    ∃ rest, cwdToPathSegments (exampleEnv "") (filesOf []) 20 (str "/home/u/a/b/c/d/e") =
      .ok ({ path := str "~", home := true } :: rest) :=
  cwdToPathSegments_home_first (exampleEnv "") (filesOf []) 20 (str "/home/u/a/b/c/d/e")
    (by decide) (by decide) (by decide) (fun _ _ => rfl) (by decide)

/-- C6: for every project root `g` found by `searchGitRoot`, when the workspace recognizer
does not claim the path, `cwdToPathSegments` returns a sequence that starts with the
Home-kind segment labelled by the first marker existing at `g` in the order `package.json`,
`composer.json`, `Gemfile`, `cpanfile`, `__pycache__`, and by `Git` when none exists; with
both `package.json` and `composer.json` present the label is the one of `package.json`. -/
theorem cwdToPathSegments_root_label (env : Env) (fs : FS) (fuel : Nat) (cwd g : GoString)
    (hfound : searchGitRoot fs fuel cwd = .ok (g, true))
    (hws : ¬ ((LookupEnv env (str "GOPATH")).1 ≠ str "" ∧
      HasPrefix cwd ((LookupEnv env (str "GOPATH")).1 ++ str "/src") = true)) :
    (∃ rest, cwdToPathSegments env fs fuel cwd =
        .ok ({ path := firstMarkerLabel fs g, home := true } :: rest)) ∧
      ((∀ m ∈ markerTable, «exists» fs [g, m.1] = false) → firstMarkerLabel fs g = str "Git") ∧
      («exists» fs [g, str "package.json"] = true →
        «exists» fs [g, str "composer.json"] = true → firstMarkerLabel fs g = str "JS") := by
  refine ⟨?_, ?_, ?_⟩
  · rcases searchGitRoot_result fs fuel cwd g true hfound with ⟨-, h⟩ | ⟨-, h2, -, h4, -⟩
    · cases h
    · have hlen : (Dir g).length ≤ cwd.length := le_trans (length_Dir_le g h2) h4
      obtain ⟨st, hst, hrun⟩ := cwdToPathSegments_returns env fs fuel cwd g true hfound
      rw [branch_git env fs g cwd hws (by rw [str_empty]; exact h2) hlen] at hst
      injection hst with hst
      subst hst
      obtain ⟨extra, he⟩ := emit_prefix [{ path := icon fs g, home := true }]
        (skipNames (splitNames (cwd.drop (Dir g).length)) 0) true
      refine ⟨extra, ?_⟩
      rw [hrun]
      simp only [] at he ⊢
      rw [he, icon_eq_firstMarkerLabel]
      rfl
  · intro hnone
    unfold firstMarkerLabel
    have : markerTable.find? (fun m => «exists» fs [g, m.1]) = none := by
      rw [List.find?_eq_none]
      intro m hm
      simp [hnone m hm]
    rw [this]
  · intro h1 _
    unfold firstMarkerLabel markerTable
    simp [List.find?_cons, h1]

/-- C6 at a root `/home/u/p` that holds both `package.json` and `composer.json`. -/
theorem cwdToPathSegments_root_label_witness :
    ∃ rest, cwdToPathSegments (exampleEnv "")
        (filesOf ["/home/u/p/.git", "/home/u/p/composer.json", "/home/u/p/package.json"])
        10 (str "/home/u/p/x") = .ok ({ path := str "JS", home := true } :: rest) :=
  (cwdToPathSegments_root_label (exampleEnv "")
    (filesOf ["/home/u/p/.git", "/home/u/p/composer.json", "/home/u/p/package.json"])
    10 (str "/home/u/p/x") (str "/home/u/p") rfl (by decide)).1

/-- The result of `searchGitRoot` on an absolute starting directory, for every file system:
it returns (within `len(cwd) - 1` ascents) `(c, true)` for the nearest candidate `c` of the
ascending chain `cwd, Dir(cwd), ...` before `/` that holds `.git`; it returns `("", false)`
exactly when no candidate of the chain holds it; and the string `/` (like the empty string)
is no candidate of the chain. -/
theorem searchGitRoot_nearest_candidate (fs : FS) (fuel : Nat) (cwd : GoString)
    (habs : cwd.head? = some slash) (hfuel : cwd.length ≤ fuel + 1) :
    searchGitRoot fs fuel cwd = .ok (nearestRoot fs cwd) ∧
      (searchGitRoot fs fuel cwd = .ok (str "", false) ↔
        ∀ c ∈ ancestorChain cwd, «exists» fs [c, str ".git"] = false) ∧
      (∀ c ∈ ancestorChain cwd, c ≠ str "/" ∧ c ≠ str "") := by
  have hs := searchGitRoot_eq_nearestRoot fs fuel cwd habs hfuel
  refine ⟨hs, ?_, fun c hc => mem_ancestorChain_candidate cwd c hc⟩
  rw [hs, ← nearestRoot_none_iff]
  constructor
  · intro h; injection h
  · intro h; rw [h]

/-- The nearest candidate at `/home/u/p/x/y` with `.git` in `/home/u/p` and in `/home`: the chain is
`/home/u/p/x/y`, `/home/u/p/x`, `/home/u/p`, `/home/u`, `/home`, and the nearer root is
returned. -/
theorem searchGitRoot_nearest_candidate_witness :
    ancestorChain (str "/home/u/p/x/y") =
        [str "/home/u/p/x/y", str "/home/u/p/x", str "/home/u/p", str "/home/u", str "/home"] ∧
      searchGitRoot (filesOf ["/home/.git", "/home/u/p/.git"]) 20 (str "/home/u/p/x/y")
        = .ok (str "/home/u/p", true) :=
  ⟨by decide,
   (searchGitRoot_nearest_candidate (filesOf ["/home/.git", "/home/u/p/.git"]) 20
      (str "/home/u/p/x/y") (by decide) (by decide)).1⟩

/-- C7, the code at a failing input: for the absolute starting directories `//` and `/a/..`
the loop guard `cwd == "/"` does not hold, the probe `exists(cwd, ".git")` is
`os.Stat("/.git")`, the marker of the filesystem root, and the result changes with that file
alone: the root is probed. -/
theorem searchGitRoot_probes_root :
    filepathJoin [str "//", str ".git"] = str "/.git" ∧
      searchGitRoot (filesOf ["/.git"]) 5 (str "//") = .ok (str "//", true) ∧
      searchGitRoot (filesOf []) 5 (str "//") = .ok (str "", false) ∧
      filepathJoin [str "/a/..", str ".git"] = str "/.git" ∧
      searchGitRoot (filesOf ["/.git"]) 5 (str "/a/..") = .ok (str "/a/..", true) ∧
      searchGitRoot (filesOf []) 5 (str "/a/..") = .ok (str "", false) :=
  ⟨by decide, rfl, rfl, by decide, rfl, rfl⟩

/-- Workspace precedence where it holds: whenever `GOPATH` is non-empty and the path starts
with `GOPATH + "/src"`, every result of `cwdToPathSegments` starts with the Home-kind
workspace glyph and is the same for any two file systems; for an absolute path the function
returns (within `len(cwd) - 1` ascents of `searchGitRoot`) under both. -/
theorem cwdToPathSegments_workspace_precedence (env : Env) (cwd : GoString)
    (hws : (LookupEnv env (str "GOPATH")).1 ≠ str "" ∧
      HasPrefix cwd ((LookupEnv env (str "GOPATH")).1 ++ str "/src") = true) :
    (∀ (fs1 fs2 : FS) (fuel1 fuel2 : Nat) (segs1 segs2 : List pathSegment),
        cwdToPathSegments env fs1 fuel1 cwd = .ok segs1 →
        cwdToPathSegments env fs2 fuel2 cwd = .ok segs2 →
        segs1 = segs2 ∧ segs1.head? = some { path := str "🐭", home := true }) ∧
      (cwd.head? = some slash → ∀ (fs1 fs2 : FS) (fuel : Nat), cwd.length ≤ fuel + 1 →
        ∃ rest,
          cwdToPathSegments env fs1 fuel cwd = .ok ({ path := str "🐭", home := true } :: rest) ∧
          cwdToPathSegments env fs2 fuel cwd =
            .ok ({ path := str "🐭", home := true } :: rest)) := by
  obtain ⟨extra, he⟩ := emit_prefix [{ path := str "🐭", home := true }]
    (skipNames (splitNames
      (cwd.drop ((LookupEnv env (str "GOPATH")).1 ++ str "/src").length)) 2) true
  constructor
  · intro fs1 fs2 fuel1 fuel2 segs1 segs2 h1 h2
    obtain ⟨g1, b1, _, _, _, hs1, -, -, -, -⟩ := cwdToPathSegments_ok h1
    obtain ⟨g2, b2, _, _, _, hs2, -, -, -, -⟩ := cwdToPathSegments_ok h2
    rw [cwdToPathSegments_workspace env fs1 fuel1 cwd _ hs1 hws] at h1
    rw [cwdToPathSegments_workspace env fs2 fuel2 cwd _ hs2 hws] at h2
    injection h1 with h1
    injection h2 with h2
    subst h1
    refine ⟨h2, ?_⟩
    rw [he]
    rfl
  · intro habs fs1 fs2 fuel hfuel
    obtain ⟨r1, hs1⟩ := searchGitRoot_terminates fs1 fuel cwd habs hfuel
    obtain ⟨r2, hs2⟩ := searchGitRoot_terminates fs2 fuel cwd habs hfuel
    refine ⟨extra, ?_, ?_⟩
    · rw [cwdToPathSegments_workspace env fs1 fuel cwd _ hs1 hws, he]; rfl
    · rw [cwdToPathSegments_workspace env fs2 fuel cwd _ hs2 hws, he]; rfl

/-- Workspace precedence at `/go/src/a/b/c` with `GOPATH=/go`: the same result with no file
at all and with a version-control root and a `package.json` in `/go/src/a`. -/
theorem cwdToPathSegments_workspace_precedence_witness :
    ∃ rest,
      cwdToPathSegments (exampleEnv "/go") (filesOf []) 20 (str "/go/src/a/b/c")
        = .ok ({ path := str "🐭", home := true } :: rest) ∧
      cwdToPathSegments (exampleEnv "/go")
          (filesOf ["/go/src/a/.git", "/go/src/a/package.json"]) 20 (str "/go/src/a/b/c")
        = .ok ({ path := str "🐭", home := true } :: rest) :=
  (cwdToPathSegments_workspace_precedence (exampleEnv "/go") (str "/go/src/a/b/c")
    ⟨by decide, by decide⟩).2 (by decide) (filesOf [])
    (filesOf ["/go/src/a/.git", "/go/src/a/package.json"]) 20 (by decide)

/-- C8, the code at a failing input: with `GOPATH=go` the path `go/src/a/b/c` starts with
`GOPATH + "/src"`; `cwdToPathSegments` returns the glyph and `c` when `go/src/a/.git`
exists, and does not return at all when no `.git` exists (the search of line 35 runs before
the workspace test and ascends `go/src/a/b/c`, ..., `go`, `.`, `.`, ...): the outcome depends
on the `.git` files. -/
theorem cwdToPathSegments_workspace_depends_on_git :
    (exampleEnv "go") (str "GOPATH") = some (str "go") ∧
      HasPrefix (str "go/src/a/b/c") (str "go" ++ str "/src") = true ∧
      cwdToPathSegments (exampleEnv "go") (filesOf ["go/src/a/.git"]) 20 (str "go/src/a/b/c")
        = .ok [{ path := str "🐭", home := true }, { path := str "c" }] ∧
      (∀ fuel, cwdToPathSegments (exampleEnv "go") (filesOf []) fuel (str "go/src/a/b/c")
        = .error .outOfFuel) := by
  refine ⟨by decide, by decide, rfl, ?_⟩
  intro fuel
  apply cwdToPathSegments_outOfFuel
  have h5 : ∀ n, searchGitRoot (filesOf []) n (str "go") = .error .outOfFuel :=
    searchGitRoot_diverges_step _ _ (by decide) (by decide)
      (fun n => by
        have hd : Dir (str "go") = str "." := by decide
        rw [hd]; exact searchGitRoot_dot_diverges n)
  have h4 : ∀ n, searchGitRoot (filesOf []) n (str "go/src") = .error .outOfFuel :=
    searchGitRoot_diverges_step _ _ (by decide) (by decide)
      (fun n => by
        have hd : Dir (str "go/src") = str "go" := by decide
        rw [hd]; exact h5 n)
  have h3 : ∀ n, searchGitRoot (filesOf []) n (str "go/src/a") = .error .outOfFuel :=
    searchGitRoot_diverges_step _ _ (by decide) (by decide)
      (fun n => by
        have hd : Dir (str "go/src/a") = str "go/src" := by decide
        rw [hd]; exact h4 n)
  have h2 : ∀ n, searchGitRoot (filesOf []) n (str "go/src/a/b") = .error .outOfFuel :=
    searchGitRoot_diverges_step _ _ (by decide) (by decide)
      (fun n => by
        have hd : Dir (str "go/src/a/b") = str "go/src/a" := by decide
        rw [hd]; exact h3 n)
  exact searchGitRoot_diverges_step _ _ (by decide) (by decide)
    (fun n => by
      have hd : Dir (str "go/src/a/b/c") = str "go/src/a/b" := by decide
      rw [hd]; exact h2 n) fuel

/-- The two segments of a workspace path, where they are returned: for a path
`GOPATH/src/c1/.../cn` with `GOPATH` non-empty and `n ≥ 3` names, every result of
`cwdToPathSegments` is exactly the Home-kind workspace glyph followed by one Plain segment
with the text `c3/.../cn`; for an absolute `GOPATH` the function returns it (within
`len(cwd) - 1` ascents of `searchGitRoot`). -/
theorem cwdToPathSegments_workspace_two_segments (env : Env) (fs : FS)
    (gopath : GoString) (comps : List GoString)
    (hgo : (LookupEnv env (str "GOPATH")).1 = gopath) (hne : gopath ≠ str "")
    (hn : 3 ≤ comps.length) (hc : ∀ c ∈ comps, isName c) :
    (∀ fuel segs,
        cwdToPathSegments env fs fuel (gopath ++ str "/src" ++ absPath comps) = .ok segs →
        segs = [{ path := str "🐭", home := true },
                { path := Join (comps.drop 2) (str "/") }]) ∧
      (gopath.head? = some slash → ∀ fuel,
        (gopath ++ str "/src" ++ absPath comps).length ≤ fuel + 1 →
        cwdToPathSegments env fs fuel (gopath ++ str "/src" ++ absPath comps) =
          .ok [{ path := str "🐭", home := true },
               { path := Join (comps.drop 2) (str "/") }]) := by
  have hws : (LookupEnv env (str "GOPATH")).1 ≠ str "" ∧
      HasPrefix (gopath ++ str "/src" ++ absPath comps)
        ((LookupEnv env (str "GOPATH")).1 ++ str "/src") = true := by
    rw [hgo]
    refine ⟨hne, ?_⟩
    unfold HasPrefix
    rw [List.isPrefixOf_iff_prefix]
    exact List.prefix_append _ _
  have hval : cwdToPathSegments_emit [{ path := str "🐭", home := true }]
      (skipNames (splitNames ((gopath ++ str "/src" ++ absPath comps).drop
        ((LookupEnv env (str "GOPATH")).1 ++ str "/src").length)) 2) true =
      [{ path := str "🐭", home := true }, { path := Join (comps.drop 2) (str "/") }] := by
    rw [hgo, List.drop_left]
    unfold absPath
    rw [splitNames_slash_Join comps hc]
    have hlt : ((2 : Int) < (comps.length : Int)) := by omega
    unfold skipNames
    rw [if_pos hlt]
    unfold cwdToPathSegments_emit
    have hpos : 0 < (comps.drop (2 : Int).toNat).length := by
      rw [List.length_drop]
      have : (2 : Int).toNat = 2 := rfl
      omega
    rw [if_pos hpos]
    rfl
  constructor
  · intro fuel segs h
    obtain ⟨g, b, _, _, _, hs, -, -, -, -⟩ := cwdToPathSegments_ok h
    rw [cwdToPathSegments_workspace env fs fuel _ _ hs hws, hval] at h
    injection h with h
    exact h.symm
  · intro habs fuel hfuel
    have habs2 : (gopath ++ str "/src" ++ absPath comps).head? = some slash := by
      obtain ⟨rest, rfl⟩ := rooted_cases gopath habs
      rfl
    obtain ⟨r, hs⟩ := searchGitRoot_terminates fs fuel _ habs2 hfuel
    rw [cwdToPathSegments_workspace env fs fuel _ _ hs hws, hval]

/-- The two segments at `/go/src/a/b/c` with `GOPATH=/go`: the glyph and the Plain segment
`c`. -/
theorem cwdToPathSegments_workspace_two_segments_witness :
    cwdToPathSegments (exampleEnv "/go") (filesOf ["/go/src/a/.git"]) 20
        (str "/go" ++ str "/src" ++ absPath [str "a", str "b", str "c"]) =
      .ok [{ path := str "🐭", home := true }, { path := str "c" }] :=
  (cwdToPathSegments_workspace_two_segments (exampleEnv "/go") (filesOf ["/go/src/a/.git"])
    (str "/go") [str "a", str "b", str "c"] (by decide) (by decide) (by decide)
    (by decide)).2 (by decide) 20 (by decide)

/-- C9, the code at a failing input: with `GOPATH=w` the path `w/src/x/y/z` has the form
`GOPATH/src/c1/c2/c3` with three non-empty names, and with no `.git` in reach
`cwdToPathSegments` returns no segment sequence at all: the search of line 35 ascends
`w/src/x/y/z`, ..., `w`, `.`, `.`, ... and never ends. -/
theorem cwdToPathSegments_workspace_never_returns :
    (exampleEnv "w") (str "GOPATH") = some (str "w") ∧
      str "w/src/x/y/z" = str "w" ++ str "/src" ++ absPath [str "x", str "y", str "z"] ∧
      (∀ c ∈ [str "x", str "y", str "z"], isName c) ∧
      (∀ fuel, cwdToPathSegments (exampleEnv "w") (filesOf []) fuel (str "w/src/x/y/z")
        = .error .outOfFuel) := by
  refine ⟨by decide, by decide, by decide, ?_⟩
  intro fuel
  apply cwdToPathSegments_outOfFuel
  have h5 : ∀ n, searchGitRoot (filesOf []) n (str "w") = .error .outOfFuel :=
    searchGitRoot_diverges_step _ _ (by decide) (by decide)
      (fun n => by
        have hd : Dir (str "w") = str "." := by decide
        rw [hd]; exact searchGitRoot_dot_diverges n)
  have h4 : ∀ n, searchGitRoot (filesOf []) n (str "w/src") = .error .outOfFuel :=
    searchGitRoot_diverges_step _ _ (by decide) (by decide)
      (fun n => by
        have hd : Dir (str "w/src") = str "w" := by decide
        rw [hd]; exact h5 n)
  have h3 : ∀ n, searchGitRoot (filesOf []) n (str "w/src/x") = .error .outOfFuel :=
    searchGitRoot_diverges_step _ _ (by decide) (by decide)
      (fun n => by
        have hd : Dir (str "w/src/x") = str "w/src" := by decide
        rw [hd]; exact h4 n)
  have h2 : ∀ n, searchGitRoot (filesOf []) n (str "w/src/x/y") = .error .outOfFuel :=
    searchGitRoot_diverges_step _ _ (by decide) (by decide)
      (fun n => by
        have hd : Dir (str "w/src/x/y") = str "w/src/x" := by decide
        rw [hd]; exact h3 n)
  exact searchGitRoot_diverges_step _ _ (by decide) (by decide)
    (fun n => by
      have hd : Dir (str "w/src/x/y/z") = str "w/src/x/y" := by decide
      rw [hd]; exact h2 n) fuel

/-- C10: for every clean absolute path `/c1/.../cn` not claimed by the workspace recognizer
whose nearest version-control root is `R`, the root is `/c1/.../ck` for some `1 ≤ k ≤ n`
and `cwdToPathSegments` returns (within `len(cwd) - 1` ascents of `searchGitRoot`) exactly
two segments: the Home-kind segment with the ecosystem label of `R`, and one Plain segment
with the text `ck/.../cn`, the name of `R` followed by the names below it. -/
theorem cwdToPathSegments_git_two_segments (env : Env) (fs : FS) (fuel : Nat)
    (comps : List GoString) (R : GoString)
    (hc : ∀ c ∈ comps, isCleanName c)
    (hws : ¬ ((LookupEnv env (str "GOPATH")).1 ≠ str "" ∧
      HasPrefix (absPath comps) ((LookupEnv env (str "GOPATH")).1 ++ str "/src") = true))
    (hroot : nearestRoot fs (absPath comps) = (R, true))
    (hfuel : (absPath comps).length ≤ fuel + 1) :
    ∃ k, 1 ≤ k ∧ k ≤ comps.length ∧ R = absPath (comps.take k) ∧
      cwdToPathSegments env fs fuel (absPath comps) =
        .ok [{ path := firstMarkerLabel fs R, home := true },
             { path := Join (comps.drop (k - 1)) (str "/") }] := by
  have hname : ∀ c ∈ comps, isName c := fun c hx => (hc c hx).1
  have hs := searchGitRoot_eq_nearestRoot fs fuel (absPath comps) rfl hfuel
  rw [hroot] at hs
  obtain ⟨k, hk1, hk2, hR⟩ :=
    mem_ancestorChain_absPath comps hc R (nearestRoot_mem fs _ R hroot)
  refine ⟨k, hk1, hk2, hR, ?_⟩
  have hDir : Dir R = absPath (comps.take (k - 1)) := by
    rw [hR, Dir_absPath _ (fun c hx => hc c (List.mem_of_mem_take hx)),
      List.dropLast_eq_take, List.take_take, List.length_take]
    congr 2
    omega
  have hlen : (Dir R).length ≤ (absPath comps).length := by
    rcases searchGitRoot_result fs fuel _ R true hs with ⟨-, h⟩ | ⟨-, h2, -, h4, -⟩
    · cases h
    · exact le_trans (length_Dir_le R h2) h4
  have hRne : R ≠ str "" := by rw [hR]; simp [absPath, str_empty]
  obtain ⟨st, hst, hrun⟩ := cwdToPathSegments_returns env fs fuel _ R true hs
  rw [branch_git env fs R _ hws hRne hlen] at hst
  injection hst with hst
  subst hst
  rw [hrun]
  simp only []
  rw [hDir, splitNames_drop_absPath comps hname (k - 1) (by omega), skipNames_zero,
    icon_eq_firstMarkerLabel]
  unfold cwdToPathSegments_emit
  rw [if_pos (by rw [List.length_drop]; omega)]
  rfl

/-- C10 at `/home/u/p/x/y` with `.git` and `composer.json` in `/home/u/p`: the label of the
PHP manifest and the Plain segment `p/x/y`. -/
theorem cwdToPathSegments_git_two_segments_witness :
    ∃ k, 1 ≤ k ∧ k ≤ 5 ∧ str "/home/u/p" = absPath ([str "home", str "u", str "p", str "x",
        str "y"].take k) ∧
      cwdToPathSegments (exampleEnv "") (filesOf ["/home/u/p/.git", "/home/u/p/composer.json"])
          20 (absPath [str "home", str "u", str "p", str "x", str "y"]) =
        .ok [{ path := firstMarkerLabel
                 (filesOf ["/home/u/p/.git", "/home/u/p/composer.json"]) (str "/home/u/p"),
               home := true },
             { path := Join ([str "home", str "u", str "p", str "x", str "y"].drop (k - 1))
                 (str "/") }] :=
  cwdToPathSegments_git_two_segments (exampleEnv "")
    (filesOf ["/home/u/p/.git", "/home/u/p/composer.json"]) 20
    [str "home", str "u", str "p", str "x", str "y"] (str "/home/u/p")
    (by decide) (by decide) (by decide) (by decide)

theorem splitNames_drop_below (base : GoString) (comps : List GoString)
    (h : ∀ c ∈ comps, isName c) :
    splitNames ((below base comps).drop base.length) = comps := by
  cases comps with
  | nil =>
    unfold below
    rw [List.drop_length]
    decide
  | cons c cs =>
    unfold below
    rw [List.drop_left]
    exact splitNames_slash_Join _ h

theorem HasPrefix_below (base : GoString) (comps : List GoString) :
    HasPrefix (below base comps) base = true := by
  unfold HasPrefix
  rw [List.isPrefixOf_iff_prefix]
  cases comps with
  | nil => exact List.prefix_refl _
  | cons c cs => exact List.prefix_append _ _

/-- The result of the home branch on `HOME/c1/.../cn`. -/
theorem cwdToPathSegments_home_value (env : Env) (fs : FS) (fuel : Nat) (H : GoString)
    (comps : List GoString) (hH : (LookupEnv env (str "HOME")).1 = H)
    (hc : ∀ c ∈ comps, isName c)
    (hws : ¬ ((LookupEnv env (str "GOPATH")).1 ≠ str "" ∧
      HasPrefix (below H comps) ((LookupEnv env (str "GOPATH")).1 ++ str "/src") = true))
    (hs : searchGitRoot fs fuel (below H comps) = .ok (str "", false)) :
    cwdToPathSegments env fs fuel (below H comps) =
      .ok ({ path := str "~", home := true } :: comps.map (fun name => { path := name })) := by
  obtain ⟨st, hst, hrun⟩ := cwdToPathSegments_returns env fs fuel _ _ _ hs
  rw [branch_home env fs _ _ hws rfl (by rw [hH]; exact HasPrefix_below H comps)] at hst
  injection hst with hst
  subst hst
  rw [hrun]
  simp only []
  rw [hH, splitNames_drop_below H comps hc, skipNames_zero]
  unfold cwdToPathSegments_emit
  cases comps with
  | nil => rfl
  | cons c cs => simp

/-- C11: for a home directory `H` and a path `H/c1/.../cn` (`n ≥ 0` names) not claimed by
the workspace recognizer, whenever `searchGitRoot` finds no version-control root
`cwdToPathSegments` returns exactly `["~" (Home), c1, ..., cn (Plain)]`; for an absolute `H`
with no `.git` in any candidate of the ascending chain it does so within `len(cwd) - 1`
ascents. -/
theorem cwdToPathSegments_home_plain_segments (env : Env) (fs : FS) (H : GoString)
    (comps : List GoString) (hH : (LookupEnv env (str "HOME")).1 = H)
    (hc : ∀ c ∈ comps, isName c)
    (hws : ¬ ((LookupEnv env (str "GOPATH")).1 ≠ str "" ∧
      HasPrefix (below H comps) ((LookupEnv env (str "GOPATH")).1 ++ str "/src") = true)) :
    (∀ fuel, searchGitRoot fs fuel (below H comps) = .ok (str "", false) →
        cwdToPathSegments env fs fuel (below H comps) =
          .ok ({ path := str "~", home := true } ::
                comps.map (fun name => { path := name }))) ∧
      (H.head? = some slash →
        (∀ c ∈ ancestorChain (below H comps), «exists» fs [c, str ".git"] = false) →
        ∀ fuel, (below H comps).length ≤ fuel + 1 →
        cwdToPathSegments env fs fuel (below H comps) =
          .ok ({ path := str "~", home := true } ::
                comps.map (fun name => { path := name }))) := by
  refine ⟨fun fuel hs => cwdToPathSegments_home_value env fs fuel H comps hH hc hws hs, ?_⟩
  intro habs hnone fuel hfuel
  have habs2 : (below H comps).head? = some slash := by
    obtain ⟨rest, rfl⟩ := rooted_cases H habs
    cases comps <;> rfl
  have hs := searchGitRoot_eq_nearestRoot fs fuel _ habs2 hfuel
  rw [(nearestRoot_none_iff fs _).2 hnone] at hs
  exact cwdToPathSegments_home_value env fs fuel H comps hH hc hws hs

/-- C11 at the end-to-end example: `/home/u/proj` with `HOME=/home/u` and no `.git`. -/
theorem cwdToPathSegments_home_plain_segments_witness :
    cwdToPathSegments (exampleEnv "") (filesOf []) 20 (str "/home/u/proj") =
      .ok [{ path := str "~", home := true }, { path := str "proj" }] :=
  (cwdToPathSegments_home_plain_segments (exampleEnv "") (filesOf []) (str "/home/u")
    [str "proj"] (by decide) (by decide) (by decide)).2 (by decide) (fun _ _ => rfl) 20
    (by decide)

/-- C12: for the path `/`, when the home directory is not a prefix of it (the workspace
recognizer cannot claim it: `GOPATH + "/src"` is longer), `cwdToPathSegments` returns
exactly one segment, the Root-kind segment `/`. -/
theorem cwdToPathSegments_at_root (env : Env) (fs : FS) (fuel : Nat)
    (hhome : HasPrefix (str "/") (LookupEnv env (str "HOME")).1 = false) :
    cwdToPathSegments env fs fuel (str "/") = .ok [{ path := str "/", root := true }] := by
  have hs : searchGitRoot fs fuel (str "/") = .ok (str "", false) := by
    unfold searchGitRoot
    rw [if_pos (Or.inl rfl)]
  have hws : ¬ ((LookupEnv env (str "GOPATH")).1 ≠ str "" ∧
      HasPrefix (str "/") ((LookupEnv env (str "GOPATH")).1 ++ str "/src") = true) := by
    intro ⟨_, h⟩
    have hl := HasPrefix_length h
    have h4 : (str "/src").length = 4 := by decide
    have h1 : (str "/").length = 1 := by decide
    rw [List.length_append, h4, h1] at hl
    omega
  obtain ⟨st, hst, hrun⟩ := cwdToPathSegments_returns env fs fuel _ _ _ hs
  have hb : cwdToPathSegments_branch env fs (str "") (str "/") =
      .ok { pathSegments := [{ path := str "/", root := true }], cwd := str "/",
            skip := 0, joined := false } := by
    unfold cwdToPathSegments_branch
    simp only []
    rw [if_neg hws, if_neg (by simp), if_neg (by rw [hhome]; simp), if_pos trivial]
    rfl
  rw [hb] at hst
  injection hst with hst
  subst hst
  rw [hrun]
  rfl

/-- C12 with `HOME=/home/u`. -/
theorem cwdToPathSegments_at_root_witness :
    cwdToPathSegments (exampleEnv "") (filesOf ["/.git"]) 0 (str "/") =
      .ok [{ path := str "/", root := true }] :=
  cwdToPathSegments_at_root (exampleEnv "") (filesOf ["/.git"]) 0 (by decide)

/-- C13: in the default mode (neither `plain` nor `dironly`), for every `maxDepth ≤ 0` and
every sequence returned by `cwdToPathSegments`, `segmentCwd` returns normally, signals
exactly one advisory through `warn`, and emits one entry per segment of the untruncated
sequence, in order (no ellipsis is inserted); the default branch does so on every
sequence. -/
theorem segmentCwd_nonpositive_depth (env : Env) (fs : FS) (fuel : Nat) (p : powerline)
    (segs : List pathSegment)
    (hplain : p.args.CwdMode ≠ str "plain") (hdironly : p.args.CwdMode ≠ str "dironly")
    (hrun : cwdToPathSegments env fs fuel
      (if p.cwd = str "" then (LookupEnv env (str "PWD")).1 else p.cwd) = .ok segs)
    (h : p.args.CwdMaxDepth ≤ 0) :
    (∃ q, segmentCwd env fs fuel p = .ok q ∧
      q.warnings = p.warnings ++ [depthAdvisory] ∧
      q.Segments = p.Segments ++ renderedEntries p segs ∧
      (renderedEntries p segs).length = segs.length ∧
      (renderedEntries p segs).map (fun e => e.2.content) =
        segs.map (fun s => escapeVariables p (maybeShortenName p s.path))) ∧
      (∀ anySegs : List pathSegment, ∃ q, segmentCwd_default p anySegs = .ok q ∧
        q.warnings = p.warnings ++ [depthAdvisory] ∧
        q.Segments = p.Segments ++ renderedEntries p anySegs ∧
        (renderedEntries p anySegs).length = anySegs.length ∧
        (renderedEntries p anySegs).map (fun e => e.2.content) =
          anySegs.map (fun s => escapeVariables p (maybeShortenName p s.path))) := by
  have hall : ∀ anySegs : List pathSegment, ∃ q, segmentCwd_default p anySegs = .ok q ∧
      q.warnings = p.warnings ++ [depthAdvisory] ∧
      q.Segments = p.Segments ++ renderedEntries p anySegs ∧
      (renderedEntries p anySegs).length = anySegs.length ∧
      (renderedEntries p anySegs).map (fun e => e.2.content) =
        anySegs.map (fun s => escapeVariables p (maybeShortenName p s.path)) := by
    intro anySegs
    refine ⟨_, segmentCwd_default_of_limit p _ anySegs _
      (segmentCwd_limit_nonpos p anySegs h),
      ?_, ?_, renderedEntries_length p anySegs, renderedEntries_content p anySegs⟩
    · rw [segmentCwd_loop_eq p (warn p depthAdvisory) anySegs rfl rfl rfl rfl]
      rfl
    · rw [segmentCwd_loop_eq p (warn p depthAdvisory) anySegs rfl rfl rfl rfl]
      rfl
  refine ⟨?_, hall⟩
  rw [segmentCwd_default_mode env fs fuel p segs hplain hdironly hrun]
  exact hall segs

/-- C13 at `/home/u/a/b/c/d/e` with `HOME=/home/u` and `maxDepth = 0`: one advisory and the
six entries of `["~","a","b","c","d","e"]`. -/
theorem segmentCwd_nonpositive_depth_witness :
    ∃ q, segmentCwd (exampleEnv "") (filesOf []) 20 (examplePowerline "fancy" 0) = .ok q ∧
      q.warnings = [depthAdvisory] ∧
      q.Segments = renderedEntries (examplePowerline "fancy" 0) exampleSegments ∧
      (renderedEntries (examplePowerline "fancy" 0) exampleSegments).length = 6 ∧
      (renderedEntries (examplePowerline "fancy" 0) exampleSegments).map (fun e => e.2.content) =
        [str "~", str "a", str "b", str "c", str "d", str "e"] :=
  (segmentCwd_nonpositive_depth (exampleEnv "") (filesOf []) 20 (examplePowerline "fancy" 0)
    exampleSegments (by decide) (by decide) rfl (by decide)).1

/-- C14: in the default mode (neither `plain` nor `dironly`), for `maxDepth > 0` and a
sequence returned by `cwdToPathSegments` of at most `maxDepth` segments, `segmentCwd`
returns normally, signals no advisory and emits one entry per segment of that sequence, in
order (no ellipsis is inserted); the default branch does so on every such sequence. -/
theorem segmentCwd_short_sequence (env : Env) (fs : FS) (fuel : Nat) (p : powerline)
    (segs : List pathSegment)
    (hplain : p.args.CwdMode ≠ str "plain") (hdironly : p.args.CwdMode ≠ str "dironly")
    (hrun : cwdToPathSegments env fs fuel
      (if p.cwd = str "" then (LookupEnv env (str "PWD")).1 else p.cwd) = .ok segs)
    (h0 : 0 < p.args.CwdMaxDepth) (h : (segs.length : Int) ≤ p.args.CwdMaxDepth) :
    (∃ q, segmentCwd env fs fuel p = .ok q ∧
      q.warnings = p.warnings ∧
      q.Segments = p.Segments ++ renderedEntries p segs ∧
      (renderedEntries p segs).length = segs.length ∧
      (renderedEntries p segs).map (fun e => e.2.content) =
        segs.map (fun s => escapeVariables p (maybeShortenName p s.path))) ∧
      (∀ anySegs : List pathSegment, (anySegs.length : Int) ≤ p.args.CwdMaxDepth →
        ∃ q, segmentCwd_default p anySegs = .ok q ∧
          q.warnings = p.warnings ∧
          q.Segments = p.Segments ++ renderedEntries p anySegs ∧
          (renderedEntries p anySegs).length = anySegs.length ∧
          (renderedEntries p anySegs).map (fun e => e.2.content) =
            anySegs.map (fun s => escapeVariables p (maybeShortenName p s.path))) := by
  have hall : ∀ anySegs : List pathSegment, (anySegs.length : Int) ≤ p.args.CwdMaxDepth →
      ∃ q, segmentCwd_default p anySegs = .ok q ∧
        q.warnings = p.warnings ∧
        q.Segments = p.Segments ++ renderedEntries p anySegs ∧
        (renderedEntries p anySegs).length = anySegs.length ∧
        (renderedEntries p anySegs).map (fun e => e.2.content) =
          anySegs.map (fun s => escapeVariables p (maybeShortenName p s.path)) := by
    intro anySegs hlen
    refine ⟨_, segmentCwd_default_of_limit p _ anySegs _
      (segmentCwd_limit_short p anySegs h0 hlen),
      ?_, ?_, renderedEntries_length p anySegs, renderedEntries_content p anySegs⟩
    · rw [segmentCwd_loop_eq p p anySegs rfl rfl rfl rfl]
    · rw [segmentCwd_loop_eq p p anySegs rfl rfl rfl rfl]
  refine ⟨?_, hall⟩
  rw [segmentCwd_default_mode env fs fuel p segs hplain hdironly hrun]
  exact hall segs h

/-- C14 at `/home/u/a/b/c/d/e` with `HOME=/home/u` and `maxDepth = 10`: no advisory and the
six entries of `["~","a","b","c","d","e"]`. -/
theorem segmentCwd_short_sequence_witness :
    ∃ q, segmentCwd (exampleEnv "") (filesOf []) 20 (examplePowerline "fancy" 10) = .ok q ∧
      q.warnings = [] ∧
      q.Segments = renderedEntries (examplePowerline "fancy" 10) exampleSegments ∧
      (renderedEntries (examplePowerline "fancy" 10) exampleSegments).length = 6 ∧
      (renderedEntries (examplePowerline "fancy" 10) exampleSegments).map
          (fun e => e.2.content) =
        [str "~", str "a", str "b", str "c", str "d", str "e"] :=
  (segmentCwd_short_sequence (exampleEnv "") (filesOf []) 20 (examplePowerline "fancy" 10)
    exampleSegments (by decide) (by decide) rfl (by decide) (by decide)).1

/-- C15 as stated fails: with the special home display enabled, the sequence `["~"]` of the
home directory itself has a Home-kind last segment, and it is emitted with the home colour
pair `(15, 31)`, not with the current-directory pair `(254, 237)`. -/
theorem segmentCwd_home_colour_counterexample :
    (examplePowerline "fancy" 3).theme.HomeSpecialDisplay = true ∧
      cwdToPathSegments (exampleEnv "") (filesOf []) 20 (str "/home/u")
        = .ok [{ path := str "~", home := true }] ∧
      segmentCwd (exampleEnv "") (filesOf []) 20
          { examplePowerline "fancy" 3 with cwd := str "/home/u" }
        = .ok { examplePowerline "fancy" 3 with
                cwd := str "/home/u",
                Segments := [(str "cwd", { content := str "~", foreground := 15,
                                           background := 31 })] } ∧
      ((15 : UInt8), (31 : UInt8)) ≠
        ((examplePowerline "fancy" 3).theme.CwdFg, (examplePowerline "fancy" 3).theme.PathBg) :=
  ⟨rfl, rfl, rfl, by decide⟩

/-- C15, amended: in the default mode, for every non-empty sequence, the last emitted
segment (that of the last segment of the sequence, truncated or not, tagged `cwd`) has the
current-directory colour pair `(CwdFg, PathBg)`, unless it is a Home-kind segment under an
enabled special home display, where it has the home colour pair `(HomeFg, HomeBg)`. -/
theorem segmentCwd_last_colour (p : powerline) (segs : List pathSegment) (last : pathSegment)
    (hlast : segs.getLast? = some last) :
    ∃ q s, segmentCwd_default p segs = .ok q ∧
      q.Segments.getLast? = some (str "cwd", s) ∧
      (s.foreground, s.background) =
        (if last.home = true ∧ p.theme.HomeSpecialDisplay = true
         then (p.theme.HomeFg, p.theme.HomeBg) else (p.theme.CwdFg, p.theme.PathBg)) := by
  obtain ⟨q0, ps, h0, -, -, -, -, -, a6⟩ := segmentCwd_limit_total p segs
  obtain ⟨r, hr, hseg⟩ := segmentCwd_default_segments p q0 segs ps h0
  rw [hlast] at a6
  have hne : ps ≠ [] := by
    intro h; rw [h] at a6; cases a6
  have hlen : ps.length - 1 + 1 = ps.length := by
    have := List.length_pos.2 hne
    omega
  have hl := renderedEntries_getLast? p ps last a6
  refine ⟨r, (segmentCwd_entry p ps.length (ps.length - 1) last).2, hr, ?_, ?_⟩
  · rw [hseg, List.getLast?_append, hl]
    have ho := segmentCwd_entry_origin p ps.length (ps.length - 1) last
    rw [if_pos hlen] at ho
    rw [← ho]
    rfl
  · rw [segmentCwd_entry_colour, (isLastDir_iff ps.length (ps.length - 1)).2 hlen]
    unfold getColor
    by_cases hh : last.home = true ∧ p.theme.HomeSpecialDisplay = true
    · rw [if_pos hh]; simp [hh.1, hh.2]
    · rw [if_neg hh]
      have : (last.home && p.theme.HomeSpecialDisplay) = false := by
        rw [← Bool.not_eq_true]
        intro hb
        exact hh (by simpa using hb)
      simp [this]

/-- C15, amended, at `["~","a","b","c","d","e"]` with `maxDepth = 3`: the last entry is that
of `e`, with the current-directory colours. -/
theorem segmentCwd_last_colour_witness :
    ∃ q s, segmentCwd_default (examplePowerline "fancy" 3) exampleSegments = .ok q ∧
      q.Segments.getLast? = some (str "cwd", s) ∧
      (s.foreground, s.background) = ((254 : UInt8), (237 : UInt8)) :=
  segmentCwd_last_colour (examplePowerline "fancy" 3) exampleSegments { path := str "e" } rfl

/-- C16: in the default mode, for the segment at index `i` of the sequence left by the depth
limit, the emitted entry carries the thin separator and the separator foreground if and only
if the segment is not the last one and is not a Home-kind segment under an enabled special
home display (otherwise both are left at their zero values), and its origin tag is `cwd`
for the last segment and `cwd-path` for all others. -/
theorem segmentCwd_separator_and_origin (p q : powerline) (segs ps : List pathSegment)
    (i : Nat) (s : pathSegment)
    (hlim : segmentCwd_limit p segs = .ok (q, ps)) (hi : ps[i]? = some s) :
    ∃ r origin seg, segmentCwd_default p segs = .ok r ∧
      r.Segments[p.Segments.length + i]? = some (origin, seg) ∧
      origin = (if i + 1 = ps.length then str "cwd" else str "cwd-path") ∧
      ((¬ (s.home = true ∧ p.theme.HomeSpecialDisplay = true) ∧ i + 1 ≠ ps.length) →
        seg.separator = p.SeparatorThin ∧ seg.separatorForeground = p.theme.SeparatorFg) ∧
      (¬ (¬ (s.home = true ∧ p.theme.HomeSpecialDisplay = true) ∧ i + 1 ≠ ps.length) →
        seg.separator = str "" ∧ seg.separatorForeground = 0) := by
  obtain ⟨r, hr, hseg⟩ := segmentCwd_default_segments p q segs ps hlim
  refine ⟨r, (segmentCwd_entry p ps.length i s).1, (segmentCwd_entry p ps.length i s).2, hr,
    ?_, segmentCwd_entry_origin p ps.length i s,
    (segmentCwd_entry_separator p ps.length i s).1,
    (segmentCwd_entry_separator p ps.length i s).2⟩
  rw [hseg, List.getElem?_append_right (by omega)]
  have : p.Segments.length + i - p.Segments.length = i := by omega
  rw [this]
  exact renderedEntries_getElem? p ps i s hi

/-- C16 at `["~","a","b","c","d","e"]` with `maxDepth = 3`, truncated to
`["~","a",ellipsis,"e"]`: the entry of `a` (index 1) is tagged `cwd-path` and carries the
separator. -/
theorem segmentCwd_separator_and_origin_witness :
    ∃ r origin seg, segmentCwd_default (examplePowerline "fancy" 3) exampleSegments = .ok r ∧
      r.Segments[0 + 1]? = some (origin, seg) ∧
      origin = str "cwd-path" ∧
      (seg.separator = str ">" ∧ seg.separatorForeground = 244) := by
  obtain ⟨r, origin, seg, h1, h2, h3, h4, -⟩ :=
    segmentCwd_separator_and_origin (examplePowerline "fancy" 3) (examplePowerline "fancy" 3)
      exampleSegments
      [{ path := str "~", home := true }, { path := str "a" },
       { path := str "…", ellipsis := true }, { path := str "e" }] 1 { path := str "a" }
      rfl rfl
  exact ⟨r, origin, seg, h1, h2, h3, h4 ⟨by decide, by decide⟩⟩

/-- C17: the skip step, for a list of `l` names and a skip count `s ≥ 0`, returns the list
without its first `s` names when `s < l`, only the last name when `s ≥ l` and `l ≥ 2`, and
the list as it is otherwise; it never returns no name when there were at least two. -/
theorem cwdToPathSegments_skip_cases (names : List GoString) (s : Int) (h0 : 0 ≤ s) :
    (s < (names.length : Int) →
        cwdToPathSegments_skip names s = .ok (names.drop s.toNat)) ∧
      ((names.length : Int) ≤ s → 2 ≤ names.length →
        ∃ last, names.getLast? = some last ∧ cwdToPathSegments_skip names s = .ok [last]) ∧
      ((names.length : Int) ≤ s → names.length < 2 →
        cwdToPathSegments_skip names s = .ok names) ∧
      (2 ≤ names.length → ∃ r, cwdToPathSegments_skip names s = .ok r ∧ r ≠ []) := by
  have hs := skip_eq names s h0
  unfold skipNames at hs
  refine ⟨?_, ?_, ?_, ?_⟩
  · intro h
    rw [hs, if_pos h]
  · intro h h2
    have hne : names ≠ [] := by
      intro hn; rw [hn] at h2; simp at h2
    refine ⟨names.getLast hne, List.getLast?_eq_getLast _ hne, ?_⟩
    rw [hs, if_neg (by omega), if_pos h2, drop_length_pred names hne]
  · intro h h2
    rw [hs, if_neg (by omega), if_neg (by omega)]
  · intro h2
    have hne : names ≠ [] := by
      intro hn; rw [hn] at h2; simp at h2
    by_cases h : s < (names.length : Int)
    · refine ⟨_, by rw [hs, if_pos h], ?_⟩
      intro hnil
      have h1 : (names.drop s.toNat).length = 0 := by rw [hnil]; rfl
      rw [List.length_drop] at h1
      omega
    · refine ⟨_, by rw [hs, if_neg h, if_pos h2], ?_⟩
      rw [drop_length_pred names hne]
      simp

/-- C17 at the boundaries: `skip == count`, `skip > count` and `count < 2`. -/
theorem cwdToPathSegments_skip_cases_witness :
    cwdToPathSegments_skip [str "a", str "b", str "c"] 2 = .ok [str "c"] ∧
      cwdToPathSegments_skip [str "a", str "b"] 2 = .ok [str "b"] ∧
      (∃ r, cwdToPathSegments_skip [str "a", str "b"] 5 = .ok r ∧ r ≠ []) ∧
      cwdToPathSegments_skip [str "a"] 2 = .ok [str "a"] :=
  ⟨(cwdToPathSegments_skip_cases [str "a", str "b", str "c"] 2 (by decide)).1 (by decide),
   rfl,
   (cwdToPathSegments_skip_cases [str "a", str "b"] 5 (by decide)).2.2.2 (by decide),
   (cwdToPathSegments_skip_cases [str "a"] 2 (by decide)).2.2.1 (by decide) (by decide)⟩

/-- C18, the code at a failing input: from the relative directory `a`, with no `.git` in
`a` nor in the working directory, the candidate becomes `.` and stays `.`
(`filepath.Dir(".")` is `.`, which the loop guard does not test): `searchGitRoot` does not
return, whatever the number of ascents it is allowed. -/
theorem searchGitRoot_relative_never_returns :
    Dir (str "a") = str "." ∧ Dir (str ".") = str "." ∧
      (∀ fuel, searchGitRoot (filesOf []) fuel (str "a") = .error .outOfFuel) := by
  refine ⟨by decide, by decide, ?_⟩
  intro fuel
  cases fuel with
  | zero => rfl
  | succ n =>
    have hd : Dir (str "a") = str "." := by decide
    unfold searchGitRoot
    rw [if_neg (by decide), if_neg (by decide)]
    simp only []
    rw [hd]
    exact searchGitRoot_dot_diverges n

/-- C19: for a sequence of length `L` and a depth limit `D` with `0 < D < L`, the head end
`nBefore = min(2, D-1)` and the tail start `L + nBefore - D` lie within `[0, L]`, so neither
slice of the truncation goes out of range; the tail is not empty, and the truncated
sequence ends with the last segment of the untruncated one. -/
theorem segmentCwd_truncate_in_range (segs : List pathSegment) (D : Int)
    (hD : 0 < D) (hL : D < (segs.length : Int)) :
    (0 ≤ min 2 (D - 1) ∧ min 2 (D - 1) ≤ (segs.length : Int)) ∧
      (0 ≤ (segs.length : Int) + min 2 (D - 1) - D ∧
        (segs.length : Int) + min 2 (D - 1) - D ≤ (segs.length : Int)) ∧
      ∃ firstPart secondPart,
        sliceTo segs (min 2 (D - 1)) = .ok firstPart ∧
        sliceFrom segs ((segs.length : Int) + min 2 (D - 1) - D) = .ok secondPart ∧
        secondPart ≠ [] ∧
        segmentCwd_truncate segs D = .ok (firstPart ++ [ellipsisSegment] ++ secondPart) ∧
        (firstPart ++ [ellipsisSegment] ++ secondPart).getLast? = segs.getLast? := by
  have hn : ((segs.length : Int) + min 2 (D - 1) - D).toNat
      = segs.length + (min 2 (D - 1)).toNat - D.toNat := by omega
  have hd : segs.drop ((segs.length : Int) + min 2 (D - 1) - D).toNat ≠ [] := by
    intro hnil
    have h1 : (segs.drop ((segs.length : Int) + min 2 (D - 1) - D).toNat).length = 0 := by
      rw [hnil]; rfl
    rw [List.length_drop] at h1
    omega
  refine ⟨⟨by omega, by omega⟩, ⟨by omega, by omega⟩, _, _,
    sliceTo_ok segs _ (by omega) (by omega), sliceFrom_ok segs _ (by omega) (by omega),
    hd, ?_, ?_⟩
  · rw [segmentCwd_truncate_eq segs D hD hL, hn]
  · rw [List.getLast?_append_of_ne_nil _ hd, List.getLast?_drop, if_neg (by omega)]

/-- C19 at the end-to-end example: six segments and `maxDepth = 3`. -/
theorem segmentCwd_truncate_in_range_witness :
    ∃ firstPart secondPart,
      sliceTo exampleSegments (min 2 (3 - 1)) = .ok firstPart ∧
      sliceFrom exampleSegments (((exampleSegments.length : Nat) : Int) + min 2 (3 - 1) - 3)
        = .ok secondPart ∧
      secondPart ≠ [] ∧
      segmentCwd_truncate exampleSegments 3
        = .ok (firstPart ++ [ellipsisSegment] ++ secondPart) ∧
      (firstPart ++ [ellipsisSegment] ++ secondPart).getLast? = exampleSegments.getLast? :=
  (segmentCwd_truncate_in_range exampleSegments 3 (by decide) (by decide)).2.2

/-- C20, the code at a failing input: with `HOME=/home/u`, the path `/home/user2/x` is
neither the home directory nor below it (it does not start with `/home/u/`), yet
`cwdToPathSegments` emits `~` for it, followed by `ser2` and `x`, where the names of the
path are `home`, `user2`, `x`. -/
theorem cwdToPathSegments_home_prefix_not_component_wise :
    str "/home/user2/x" ≠ str "/home/u" ∧
      HasPrefix (str "/home/user2/x") (str "/home/u" ++ str "/") = false ∧
      cwdToPathSegments (exampleEnv "") (filesOf []) 20 (str "/home/user2/x")
        = .ok [{ path := str "~", home := true }, { path := str "ser2" }, { path := str "x" }] :=
  ⟨by decide, rfl, rfl⟩

end PowerlineCwd
